import Mathlib

/-!
Verification of the seek job-scraper repository's record canonicalizer and
deduplicator: the incremental upsert (`JobDatabase.insert_or_update_job` in
`seek_scraper_selenium.py`), the batch duplicate sweep (`remove_duplicates` in
`find_true_duplicates.py` / `remove_duplicates_simple.py`), and the region
lookup (`get_region` in `nz_locations.py`).

Modelling conventions:
* SQL/PostgREST rows are Lean structures with nullable (`Option String`)
  columns; a table is a `List JobRec`; timestamps are `Nat`.
* Python strings are Lean `String`; `str.lower` / `str.strip` / substring
  tests are spelled out on `List Char`.
* A Python `dict` literal with duplicate keys keeps the first occurrence's
  position and the last occurrence's value; `dictItems` reproduces that, so
  `LOCATION_MAPPING` below iterates exactly like the Python dict while
  `LOCATION_MAPPING_entries` is the verbatim source literal.
-/

namespace Seek

/-- Characters stripped by Python's `str.strip()` (whitespace). -/
def pySpace (c : Char) : Bool :=
  c == ' ' || c == '\t' || c == '\n' || c == '\r' || c == '\x0b' || c == '\x0c'

/-- Python `str.lower()` on a list of characters (ASCII, which is all the
source tables use). -/
def lowerChars (s : List Char) : List Char :=
  s.map Char.toLower

/-- Python `str.strip()`. -/
def stripChars (s : List Char) : List Char :=
  ((s.dropWhile pySpace).reverse.dropWhile pySpace).reverse

/-- Python's substring test `needle in hay`. -/
def containsSub (needle : List Char) : List Char → Bool
  | [] => needle.isEmpty
  | c :: rest => needle.isPrefixOf (c :: rest) || containsSub needle rest

/-- `location.lower().strip()` from `nz_locations.get_region`. -/
def normLoc (location : String) : List Char :=
  stripChars (lowerChars location.toList)

/-- `REGIONS` from `nz_locations.py` (the canonical region names, in source
order). -/
def REGIONS : List String := [
  "Auckland",
  "Wellington",
  "Christchurch",
  "Hamilton",
  "Tauranga",
  "Dunedin",
  "Queenstown",
  "Palmerston North",
  "Napier-Hastings",
  "Nelson",
  "Rotorua",
  "New Plymouth",
  "Whangarei",
  "Invercargill",
  "Whanganui",
  "Gisborne",
  "Blenheim",
  "Timaru",
  "Other NZ",
  "Remote / Work from Home",]

/-- The `LOCATION_MAPPING` dict literal from `nz_locations.py`, entry by entry
in source order, including the duplicated keys ("Frankton" appears under both
the Hamilton and the Queenstown blocks, "Richmond" under both the Christchurch
and the Nelson blocks). -/
def LOCATION_MAPPING_entries : List (String × String) := [
  ("Auckland", "Auckland"),
  ("CBD", "Auckland"),
  ("North Shore", "Auckland"),
  ("Takapuna", "Auckland"),
  ("Albany", "Auckland"),
  ("Orewa", "Auckland"),
  ("Hibiscus Coast", "Auckland"),
  ("Silverdale", "Auckland"),
  ("Devonport", "Auckland"),
  ("Birkenhead", "Auckland"),
  ("Glenfield", "Auckland"),
  ("Browns Bay", "Auckland"),
  ("Milford", "Auckland"),
  ("East Auckland", "Auckland"),
  ("Howick", "Auckland"),
  ("Pakuranga", "Auckland"),
  ("Botany", "Auckland"),
  ("Manukau", "Auckland"),
  ("Papatoetoe", "Auckland"),
  ("Otahuhu", "Auckland"),
  ("Mangere", "Auckland"),
  ("Otara", "Auckland"),
  ("Flat Bush", "Auckland"),
  ("South Auckland", "Auckland"),
  ("Papakura", "Auckland"),
  ("Takanini", "Auckland"),
  ("Drury", "Auckland"),
  ("Pukekohe", "Auckland"),
  ("Waiuku", "Auckland"),
  ("Franklin", "Auckland"),
  ("West Auckland", "Auckland"),
  ("Henderson", "Auckland"),
  ("Te Atatu", "Auckland"),
  ("Glen Eden", "Auckland"),
  ("New Lynn", "Auckland"),
  ("Avondale", "Auckland"),
  ("Mt Albert", "Auckland"),
  ("Pt Chevalier", "Auckland"),
  ("Grey Lynn", "Auckland"),
  ("Ponsonby", "Auckland"),
  ("Parnell", "Auckland"),
  ("Newmarket", "Auckland"),
  ("Remuera", "Auckland"),
  ("Epsom", "Auckland"),
  ("Mt Eden", "Auckland"),
  ("Grafton", "Auckland"),
  ("Penrose", "Auckland"),
  ("Onehunga", "Auckland"),
  ("Ellerslie", "Auckland"),
  ("Greenlane", "Auckland"),
  ("Mt Wellington", "Auckland"),
  ("Panmure", "Auckland"),
  ("Glen Innes", "Auckland"),
  ("St Heliers", "Auckland"),
  ("Mission Bay", "Auckland"),
  ("Kohimarama", "Auckland"),
  ("Meadowbank", "Auckland"),
  ("Orakei", "Auckland"),
  ("Waitakere", "Auckland"),
  ("Kumeu", "Auckland"),
  ("Helensville", "Auckland"),
  ("Whangaparaoa", "Auckland"),
  ("Rodney", "Auckland"),
  ("Warkworth", "Auckland"),
  ("Wellington", "Wellington"),
  ("Lower Hutt", "Wellington"),
  ("Upper Hutt", "Wellington"),
  ("Hutt Valley", "Wellington"),
  ("Porirua", "Wellington"),
  ("Kapiti", "Wellington"),
  ("Paraparaumu", "Wellington"),
  ("Waikanae", "Wellington"),
  ("Petone", "Wellington"),
  ("Eastbourne", "Wellington"),
  ("Wainuiomata", "Wellington"),
  ("Miramar", "Wellington"),
  ("Kilbirnie", "Wellington"),
  ("Lyall Bay", "Wellington"),
  ("Island Bay", "Wellington"),
  ("Newtown", "Wellington"),
  ("Mt Victoria", "Wellington"),
  ("Te Aro", "Wellington"),
  ("Thorndon", "Wellington"),
  ("Kelburn", "Wellington"),
  ("Karori", "Wellington"),
  ("Johnsonville", "Wellington"),
  ("Tawa", "Wellington"),
  ("Churton Park", "Wellington"),
  ("Khandallah", "Wellington"),
  ("Ngaio", "Wellington"),
  ("Wadestown", "Wellington"),
  ("Brooklyn", "Wellington"),
  ("Mornington", "Wellington"),
  ("Berhampore", "Wellington"),
  ("Seatoun", "Wellington"),
  ("Strathmore", "Wellington"),
  ("Hataitai", "Wellington"),
  ("Masterton", "Wellington"),
  ("Carterton", "Wellington"),
  ("Greytown", "Wellington"),
  ("Featherston", "Wellington"),
  ("Wairarapa", "Wellington"),
  ("Christchurch", "Christchurch"),
  ("Canterbury", "Christchurch"),
  ("Addington", "Christchurch"),
  ("Riccarton", "Christchurch"),
  ("Ilam", "Christchurch"),
  ("Fendalton", "Christchurch"),
  ("Merivale", "Christchurch"),
  ("Papanui", "Christchurch"),
  ("Bishopdale", "Christchurch"),
  ("Burnside", "Christchurch"),
  ("Avonhead", "Christchurch"),
  ("Hornby", "Christchurch"),
  ("Sockburn", "Christchurch"),
  ("Wigram", "Christchurch"),
  ("Halswell", "Christchurch"),
  ("Spreydon", "Christchurch"),
  ("Sydenham", "Christchurch"),
  ("Cashmere", "Christchurch"),
  ("St Martins", "Christchurch"),
  ("Opawa", "Christchurch"),
  ("Woolston", "Christchurch"),
  ("Ferrymead", "Christchurch"),
  ("Sumner", "Christchurch"),
  ("Lyttelton", "Christchurch"),
  ("Linwood", "Christchurch"),
  ("Phillipstown", "Christchurch"),
  ("Waltham", "Christchurch"),
  ("St Albans", "Christchurch"),
  ("Edgeware", "Christchurch"),
  ("Mairehau", "Christchurch"),
  ("Shirley", "Christchurch"),
  ("Richmond", "Christchurch"),
  ("Avonside", "Christchurch"),
  ("Dallington", "Christchurch"),
  ("Burwood", "Christchurch"),
  ("Parklands", "Christchurch"),
  ("New Brighton", "Christchurch"),
  ("Kaiapoi", "Christchurch"),
  ("Rangiora", "Christchurch"),
  ("Rolleston", "Christchurch"),
  ("Lincoln", "Christchurch"),
  ("Prebbleton", "Christchurch"),
  ("Selwyn", "Christchurch"),
  ("Waimakariri", "Christchurch"),
  ("Belfast", "Christchurch"),
  ("Northwood", "Christchurch"),
  ("Redwood", "Christchurch"),
  ("Harewood", "Christchurch"),
  ("Russley", "Christchurch"),
  ("Yaldhurst", "Christchurch"),
  ("Templeton", "Christchurch"),
  ("Ashburton", "Christchurch"),
  ("Hamilton", "Hamilton"),
  ("Waikato", "Hamilton"),
  ("Cambridge", "Hamilton"),
  ("Te Awamutu", "Hamilton"),
  ("Morrinsville", "Hamilton"),
  ("Matamata", "Hamilton"),
  ("Ngaruawahia", "Hamilton"),
  ("Huntly", "Hamilton"),
  ("Raglan", "Hamilton"),
  ("Frankton", "Hamilton"),
  ("Claudelands", "Hamilton"),
  ("Hamilton East", "Hamilton"),
  ("Hamilton Central", "Hamilton"),
  ("Hillcrest", "Hamilton"),
  ("Rototuna", "Hamilton"),
  ("Te Rapa", "Hamilton"),
  ("Dinsdale", "Hamilton"),
  ("Tauranga", "Tauranga"),
  ("Bay of Plenty", "Tauranga"),
  ("Mt Maunganui", "Tauranga"),
  ("Mount Maunganui", "Tauranga"),
  ("Papamoa", "Tauranga"),
  ("Te Puke", "Tauranga"),
  ("Whakatane", "Tauranga"),
  ("Katikati", "Tauranga"),
  ("Omokoroa", "Tauranga"),
  ("Bethlehem", "Tauranga"),
  ("Greerton", "Tauranga"),
  ("Pyes Pa", "Tauranga"),
  ("Welcome Bay", "Tauranga"),
  ("Dunedin", "Dunedin"),
  ("Otago", "Dunedin"),
  ("Mosgiel", "Dunedin"),
  ("Port Chalmers", "Dunedin"),
  ("St Kilda", "Dunedin"),
  ("South Dunedin", "Dunedin"),
  ("North Dunedin", "Dunedin"),
  ("Oamaru", "Dunedin"),
  ("Balclutha", "Dunedin"),
  ("Alexandra", "Dunedin"),
  ("Cromwell", "Dunedin"),
  ("Central Otago", "Dunedin"),
  ("Queenstown", "Queenstown"),
  ("Arrowtown", "Queenstown"),
  ("Frankton", "Queenstown"),
  ("Wanaka", "Queenstown"),
  ("Queenstown-Lakes", "Queenstown"),
  ("Palmerston North", "Palmerston North"),
  ("Manawatu", "Palmerston North"),
  ("Feilding", "Palmerston North"),
  ("Levin", "Palmerston North"),
  ("Horowhenua", "Palmerston North"),
  ("Napier", "Napier-Hastings"),
  ("Hastings", "Napier-Hastings"),
  ("Hawke\x27s Bay", "Napier-Hastings"),
  ("Hawkes Bay", "Napier-Hastings"),
  ("Havelock North", "Napier-Hastings"),
  ("Taradale", "Napier-Hastings"),
  ("Flaxmere", "Napier-Hastings"),
  ("Nelson", "Nelson"),
  ("Tasman", "Nelson"),
  ("Richmond", "Nelson"),
  ("Motueka", "Nelson"),
  ("Stoke", "Nelson"),
  ("Rotorua", "Rotorua"),
  ("Lakes", "Rotorua"),
  ("Taupo", "Rotorua"),
  ("New Plymouth", "New Plymouth"),
  ("Taranaki", "New Plymouth"),
  ("Stratford", "New Plymouth"),
  ("Hawera", "New Plymouth"),
  ("Inglewood", "New Plymouth"),
  ("Waitara", "New Plymouth"),
  ("Whangarei", "Whangarei"),
  ("Northland", "Whangarei"),
  ("Kerikeri", "Whangarei"),
  ("Paihia", "Whangarei"),
  ("Kaitaia", "Whangarei"),
  ("Dargaville", "Whangarei"),
  ("Invercargill", "Invercargill"),
  ("Southland", "Invercargill"),
  ("Gore", "Invercargill"),
  ("Te Anau", "Invercargill"),
  ("Whanganui", "Whanganui"),
  ("Wanganui", "Whanganui"),
  ("Gisborne", "Gisborne"),
  ("East Coast", "Gisborne"),
  ("Blenheim", "Blenheim"),
  ("Marlborough", "Blenheim"),
  ("Picton", "Blenheim"),
  ("Timaru", "Timaru"),
  ("South Canterbury", "Timaru"),
  ("Remote", "Remote / Work from Home"),
  ("Work from Home", "Remote / Work from Home"),
  ("WFH", "Remote / Work from Home"),
  ("Anywhere", "Remote / Work from Home"),
  ("New Zealand", "Remote / Work from Home"),
  ("NZ Wide", "Remote / Work from Home"),]

/-- One step of Python dict construction: binding `k` to `v` keeps the
position of an existing key but overwrites its value, and appends a fresh key
at the end. -/
def dictInsert (d : List (String × String)) (k v : String) : List (String × String) :=
  if d.any (fun p => p.1 == k) then d.map (fun p => if p.1 == k then (k, v) else p)
  else d ++ [(k, v)]

/-- Evaluation of a Python dict literal to its item list (iteration order). -/
def dictItems (l : List (String × String)) : List (String × String) :=
  l.foldl (fun d p => dictInsert d p.1 p.2) []

/-- `LOCATION_MAPPING` as the Python dict actually iterates: the literal's
entries after duplicate-key resolution. -/
def LOCATION_MAPPING : List (String × String) :=
  dictItems LOCATION_MAPPING_entries

/-- The `for keyword, region in LOCATION_MAPPING.items()` loop body of
`get_region`: return the region of the first keyword whose lowercase form is a
substring of the (already normalised) location. -/
def scanMapping : List (String × String) → List Char → Option String
  | [], _ => none
  | (keyword, region) :: rest, loc =>
    if containsSub (lowerChars keyword.toList) loc then some region
    else scanMapping rest loc

/-- The `for region in REGIONS` fallback loop of `get_region`. -/
def scanRegions : List String → List Char → Option String
  | [], _ => none
  | region :: rest, loc =>
    if containsSub (lowerChars region.toList) loc then some region
    else scanRegions rest loc

/-- `nz_locations.get_region`.  The `location == ""` test models Python's
`if not location` guard (an empty or missing location). -/
def get_region (location : String) : String :=
  if location == "" then "Other NZ"
  else
    let loc := normLoc location
    match scanMapping LOCATION_MAPPING loc with
    | some region => region
    | none =>
      match scanRegions REGIONS loc with
      | some region => region
      | none => "Other NZ"

set_option maxRecDepth 100000
set_option maxHeartbeats 1600000

/-- The item list the `LOCATION_MAPPING` dict literal evaluates to (verified
against `dictItems LOCATION_MAPPING_entries` below): 250 entries, first
occurrence's position, last occurrence's value for the two duplicated keys. -/
def LOCATION_MAPPING_items : List (String × String) := [
  ("Auckland", "Auckland"),
  ("CBD", "Auckland"),
  ("North Shore", "Auckland"),
  ("Takapuna", "Auckland"),
  ("Albany", "Auckland"),
  ("Orewa", "Auckland"),
  ("Hibiscus Coast", "Auckland"),
  ("Silverdale", "Auckland"),
  ("Devonport", "Auckland"),
  ("Birkenhead", "Auckland"),
  ("Glenfield", "Auckland"),
  ("Browns Bay", "Auckland"),
  ("Milford", "Auckland"),
  ("East Auckland", "Auckland"),
  ("Howick", "Auckland"),
  ("Pakuranga", "Auckland"),
  ("Botany", "Auckland"),
  ("Manukau", "Auckland"),
  ("Papatoetoe", "Auckland"),
  ("Otahuhu", "Auckland"),
  ("Mangere", "Auckland"),
  ("Otara", "Auckland"),
  ("Flat Bush", "Auckland"),
  ("South Auckland", "Auckland"),
  ("Papakura", "Auckland"),
  ("Takanini", "Auckland"),
  ("Drury", "Auckland"),
  ("Pukekohe", "Auckland"),
  ("Waiuku", "Auckland"),
  ("Franklin", "Auckland"),
  ("West Auckland", "Auckland"),
  ("Henderson", "Auckland"),
  ("Te Atatu", "Auckland"),
  ("Glen Eden", "Auckland"),
  ("New Lynn", "Auckland"),
  ("Avondale", "Auckland"),
  ("Mt Albert", "Auckland"),
  ("Pt Chevalier", "Auckland"),
  ("Grey Lynn", "Auckland"),
  ("Ponsonby", "Auckland"),
  ("Parnell", "Auckland"),
  ("Newmarket", "Auckland"),
  ("Remuera", "Auckland"),
  ("Epsom", "Auckland"),
  ("Mt Eden", "Auckland"),
  ("Grafton", "Auckland"),
  ("Penrose", "Auckland"),
  ("Onehunga", "Auckland"),
  ("Ellerslie", "Auckland"),
  ("Greenlane", "Auckland"),
  ("Mt Wellington", "Auckland"),
  ("Panmure", "Auckland"),
  ("Glen Innes", "Auckland"),
  ("St Heliers", "Auckland"),
  ("Mission Bay", "Auckland"),
  ("Kohimarama", "Auckland"),
  ("Meadowbank", "Auckland"),
  ("Orakei", "Auckland"),
  ("Waitakere", "Auckland"),
  ("Kumeu", "Auckland"),
  ("Helensville", "Auckland"),
  ("Whangaparaoa", "Auckland"),
  ("Rodney", "Auckland"),
  ("Warkworth", "Auckland"),
  ("Wellington", "Wellington"),
  ("Lower Hutt", "Wellington"),
  ("Upper Hutt", "Wellington"),
  ("Hutt Valley", "Wellington"),
  ("Porirua", "Wellington"),
  ("Kapiti", "Wellington"),
  ("Paraparaumu", "Wellington"),
  ("Waikanae", "Wellington"),
  ("Petone", "Wellington"),
  ("Eastbourne", "Wellington"),
  ("Wainuiomata", "Wellington"),
  ("Miramar", "Wellington"),
  ("Kilbirnie", "Wellington"),
  ("Lyall Bay", "Wellington"),
  ("Island Bay", "Wellington"),
  ("Newtown", "Wellington"),
  ("Mt Victoria", "Wellington"),
  ("Te Aro", "Wellington"),
  ("Thorndon", "Wellington"),
  ("Kelburn", "Wellington"),
  ("Karori", "Wellington"),
  ("Johnsonville", "Wellington"),
  ("Tawa", "Wellington"),
  ("Churton Park", "Wellington"),
  ("Khandallah", "Wellington"),
  ("Ngaio", "Wellington"),
  ("Wadestown", "Wellington"),
  ("Brooklyn", "Wellington"),
  ("Mornington", "Wellington"),
  ("Berhampore", "Wellington"),
  ("Seatoun", "Wellington"),
  ("Strathmore", "Wellington"),
  ("Hataitai", "Wellington"),
  ("Masterton", "Wellington"),
  ("Carterton", "Wellington"),
  ("Greytown", "Wellington"),
  ("Featherston", "Wellington"),
  ("Wairarapa", "Wellington"),
  ("Christchurch", "Christchurch"),
  ("Canterbury", "Christchurch"),
  ("Addington", "Christchurch"),
  ("Riccarton", "Christchurch"),
  ("Ilam", "Christchurch"),
  ("Fendalton", "Christchurch"),
  ("Merivale", "Christchurch"),
  ("Papanui", "Christchurch"),
  ("Bishopdale", "Christchurch"),
  ("Burnside", "Christchurch"),
  ("Avonhead", "Christchurch"),
  ("Hornby", "Christchurch"),
  ("Sockburn", "Christchurch"),
  ("Wigram", "Christchurch"),
  ("Halswell", "Christchurch"),
  ("Spreydon", "Christchurch"),
  ("Sydenham", "Christchurch"),
  ("Cashmere", "Christchurch"),
  ("St Martins", "Christchurch"),
  ("Opawa", "Christchurch"),
  ("Woolston", "Christchurch"),
  ("Ferrymead", "Christchurch"),
  ("Sumner", "Christchurch"),
  ("Lyttelton", "Christchurch"),
  ("Linwood", "Christchurch"),
  ("Phillipstown", "Christchurch"),
  ("Waltham", "Christchurch"),
  ("St Albans", "Christchurch"),
  ("Edgeware", "Christchurch"),
  ("Mairehau", "Christchurch"),
  ("Shirley", "Christchurch"),
  ("Richmond", "Nelson"),
  ("Avonside", "Christchurch"),
  ("Dallington", "Christchurch"),
  ("Burwood", "Christchurch"),
  ("Parklands", "Christchurch"),
  ("New Brighton", "Christchurch"),
  ("Kaiapoi", "Christchurch"),
  ("Rangiora", "Christchurch"),
  ("Rolleston", "Christchurch"),
  ("Lincoln", "Christchurch"),
  ("Prebbleton", "Christchurch"),
  ("Selwyn", "Christchurch"),
  ("Waimakariri", "Christchurch"),
  ("Belfast", "Christchurch"),
  ("Northwood", "Christchurch"),
  ("Redwood", "Christchurch"),
  ("Harewood", "Christchurch"),
  ("Russley", "Christchurch"),
  ("Yaldhurst", "Christchurch"),
  ("Templeton", "Christchurch"),
  ("Ashburton", "Christchurch"),
  ("Hamilton", "Hamilton"),
  ("Waikato", "Hamilton"),
  ("Cambridge", "Hamilton"),
  ("Te Awamutu", "Hamilton"),
  ("Morrinsville", "Hamilton"),
  ("Matamata", "Hamilton"),
  ("Ngaruawahia", "Hamilton"),
  ("Huntly", "Hamilton"),
  ("Raglan", "Hamilton"),
  ("Frankton", "Queenstown"),
  ("Claudelands", "Hamilton"),
  ("Hamilton East", "Hamilton"),
  ("Hamilton Central", "Hamilton"),
  ("Hillcrest", "Hamilton"),
  ("Rototuna", "Hamilton"),
  ("Te Rapa", "Hamilton"),
  ("Dinsdale", "Hamilton"),
  ("Tauranga", "Tauranga"),
  ("Bay of Plenty", "Tauranga"),
  ("Mt Maunganui", "Tauranga"),
  ("Mount Maunganui", "Tauranga"),
  ("Papamoa", "Tauranga"),
  ("Te Puke", "Tauranga"),
  ("Whakatane", "Tauranga"),
  ("Katikati", "Tauranga"),
  ("Omokoroa", "Tauranga"),
  ("Bethlehem", "Tauranga"),
  ("Greerton", "Tauranga"),
  ("Pyes Pa", "Tauranga"),
  ("Welcome Bay", "Tauranga"),
  ("Dunedin", "Dunedin"),
  ("Otago", "Dunedin"),
  ("Mosgiel", "Dunedin"),
  ("Port Chalmers", "Dunedin"),
  ("St Kilda", "Dunedin"),
  ("South Dunedin", "Dunedin"),
  ("North Dunedin", "Dunedin"),
  ("Oamaru", "Dunedin"),
  ("Balclutha", "Dunedin"),
  ("Alexandra", "Dunedin"),
  ("Cromwell", "Dunedin"),
  ("Central Otago", "Dunedin"),
  ("Queenstown", "Queenstown"),
  ("Arrowtown", "Queenstown"),
  ("Wanaka", "Queenstown"),
  ("Queenstown-Lakes", "Queenstown"),
  ("Palmerston North", "Palmerston North"),
  ("Manawatu", "Palmerston North"),
  ("Feilding", "Palmerston North"),
  ("Levin", "Palmerston North"),
  ("Horowhenua", "Palmerston North"),
  ("Napier", "Napier-Hastings"),
  ("Hastings", "Napier-Hastings"),
  ("Hawke\x27s Bay", "Napier-Hastings"),
  ("Hawkes Bay", "Napier-Hastings"),
  ("Havelock North", "Napier-Hastings"),
  ("Taradale", "Napier-Hastings"),
  ("Flaxmere", "Napier-Hastings"),
  ("Nelson", "Nelson"),
  ("Tasman", "Nelson"),
  ("Motueka", "Nelson"),
  ("Stoke", "Nelson"),
  ("Rotorua", "Rotorua"),
  ("Lakes", "Rotorua"),
  ("Taupo", "Rotorua"),
  ("New Plymouth", "New Plymouth"),
  ("Taranaki", "New Plymouth"),
  ("Stratford", "New Plymouth"),
  ("Hawera", "New Plymouth"),
  ("Inglewood", "New Plymouth"),
  ("Waitara", "New Plymouth"),
  ("Whangarei", "Whangarei"),
  ("Northland", "Whangarei"),
  ("Kerikeri", "Whangarei"),
  ("Paihia", "Whangarei"),
  ("Kaitaia", "Whangarei"),
  ("Dargaville", "Whangarei"),
  ("Invercargill", "Invercargill"),
  ("Southland", "Invercargill"),
  ("Gore", "Invercargill"),
  ("Te Anau", "Invercargill"),
  ("Whanganui", "Whanganui"),
  ("Wanganui", "Whanganui"),
  ("Gisborne", "Gisborne"),
  ("East Coast", "Gisborne"),
  ("Blenheim", "Blenheim"),
  ("Marlborough", "Blenheim"),
  ("Picton", "Blenheim"),
  ("Timaru", "Timaru"),
  ("South Canterbury", "Timaru"),
  ("Remote", "Remote / Work from Home"),
  ("Work from Home", "Remote / Work from Home"),
  ("WFH", "Remote / Work from Home"),
  ("Anywhere", "Remote / Work from Home"),
  ("New Zealand", "Remote / Work from Home"),
  ("NZ Wide", "Remote / Work from Home"),
]

/-! ## Data model

The `jobs` table (Supabase/SQLite): nullable text columns as `Option String`,
timestamps as `Nat`, the primary key as `Nat`. -/

/-- A stored row of the `jobs` table. -/
structure JobRec where
  id : Nat
  url : Option String
  title : Option String
  company : Option String
  location : Option String
  region : Option String
  salary : Option String
  date_listed : Option String
  job_type : Option String
  description : Option String
  first_seen : Nat
  last_seen : Nat
  is_active : Bool
  triage_status : Option String
deriving Repr, DecidableEq

/-- An incoming candidate: the `job` dict handed to `insert_or_update_job`.
`none` covers both a missing key and a `None` value (`job.get` conflates the
two everywhere the scraper reads it, except `job['url']`, which raises on a
missing key; a present-but-`None` url behaves the same on the lookup paths,
matching no stored row). -/
structure Candidate where
  url : Option String
  title : Option String
  company : Option String
  location : Option String
  description : Option String
  salary : Option String
  date_listed : Option String
  job_type : Option String
deriving Repr, DecidableEq

/-! ## Incremental upsert (`JobDatabase.insert_or_update_job`)

The definition is parameterised by `failAt : Option Nat`: `some k` makes the
`k`-th client operation (0-based, in execution order) raise, landing in the
`except` handler at the bottom of the source function, which logs and returns
`False`.  `none` is the failure-free run. -/

/-- SQL equality as used by the PostgREST `eq` filters: a `NULL` on either
side never compares equal. -/
def eqCol (stored cand : Option String) : Bool :=
  match stored, cand with
  | some a, some b => a == b
  | _, _ => false

/-- The `.eq("url", job['url'])` filter. -/
def urlMatch (r : JobRec) (u : String) : Bool :=
  eqCol r.url (some u)

/-- The chained `.eq("title", ...).eq("company", ...).eq("location", ...)`
filter of the duplicate query. -/
def keyMatch (r : JobRec) (c : Candidate) : Bool :=
  eqCol r.title c.title && eqCol r.company c.company && eqCol r.location c.location

/-- `(x.get('description', '') or '')[:200]` — the first 200 characters of a
description, with `NULL`/missing read as the empty string. -/
def snippet (d : Option String) : List Char :=
  (d.getD "").toList.take 200

/-- The `update({"last_seen": now, "is_active": True})` payload applied to a
row. -/
def touch (r : JobRec) (t : Nat) : JobRec :=
  { r with last_seen := t, is_active := true }

/-- The store assigns a fresh primary key on insert; modelled as one more
than the largest id present. -/
def nextId (db : List JobRec) : Nat :=
  db.foldr (fun r m => max (r.id + 1) m) 0

/-- The row built by the insert branch of `insert_or_update_job`:
`location` is read with default `''`, `region` is computed from it,
`first_seen = last_seen = now`, `is_active = True`; `triage_status` is not in
the insert payload and defaults to `NULL`. -/
def mkRecord (c : Candidate) (u : String) (t : Nat) (newId : Nat) : JobRec :=
  let location := c.location.getD ""
  { id := newId
    url := some u
    title := c.title
    company := c.company
    location := some location
    region := some (get_region location)
    salary := c.salary
    date_listed := c.date_listed
    job_type := c.job_type
    description := c.description
    first_seen := t
    last_seen := t
    is_active := true
    triage_status := none }

/-- Does the client operation numbered `ctr` raise? -/
def raiseAt (failAt : Option Nat) (ctr : Nat) : Bool :=
  failAt == some ctr

/-- The `for dup in duplicate_query.data` loop: for each title/company/location
match, one select fetches its description (`dup_full`); if the first fetched
row's 200-character snippet equals the candidate's, one update touches the
row with that id and the loop returns.  Returns `none` if an operation
raised, otherwise `some (outcome, next operation number)` where the outcome
is the updated table when a snippet matched. -/
def dupScanE (db : List JobRec) (snip : List Char) (t : Nat) (failAt : Option Nat) :
    List JobRec → Nat → Option (Option (List JobRec) × Nat)
  | [], ctr => some (none, ctr)
  | d :: rest, ctr =>
    if raiseAt failAt ctr then none
    else
      match db.filter (fun r => r.id == d.id) with
      | [] => dupScanE db snip t failAt rest (ctr + 1)
      | r :: _ =>
        if snippet r.description == snip then
          if raiseAt failAt (ctr + 1) then none
          else some (some (db.map fun x => if x.id == d.id then touch x t else x), ctr + 2)
        else dupScanE db snip t failAt rest (ctr + 1)

/-- `JobDatabase.insert_or_update_job`, with an optional injected operation
failure.  Returns the Python function's return value (`True` = inserted new
row, `False` = updated / duplicate / error) and the resulting table.
Operation numbering: 0 select-by-url; then either 1 update-by-url, or
1 select-by-title/company/location followed by the loop's selects and
updates; finally the insert.  A missing `url` key raises `KeyError` before
any operation; every raise is caught by the `except` handler, which returns
`False`. -/
def insert_or_update_jobE (db : List JobRec) (c : Candidate) (t : Nat)
    (failAt : Option Nat) : Bool × List JobRec :=
  match c.url with
  | none => (false, db)
  | some u =>
    if raiseAt failAt 0 then (false, db)
    else if db.any (fun r => urlMatch r u) then
      if raiseAt failAt 1 then (false, db)
      else (false, db.map fun r => if urlMatch r u then touch r t else r)
    else if raiseAt failAt 1 then (false, db)
    else
      match dupScanE db (snippet c.description) t failAt (db.filter fun r => keyMatch r c) 2 with
      | none => (false, db)
      | some (some db2, _) => (false, db2)
      | some (none, ctr) =>
        if raiseAt failAt ctr then (false, db)
        else (true, db ++ [mkRecord c u t (nextId db)])

/-- The failure-free `insert_or_update_job`. -/
def insert_or_update_job (db : List JobRec) (c : Candidate) (t : Nat) :
    Bool × List JobRec :=
  insert_or_update_jobE db c t none

/-- The save loop of `scrape_all_jobs`, restricted to its upsert branch: one
`insert_or_update_job` call per candidate (each paired with its injected
failure, if any), counting the `True` returns in `new_jobs`.  Nothing in the
loop re-raises, so every candidate is processed. -/
def processBatchE (t : Nat) : List (Candidate × Option Nat) → List JobRec → Nat × List JobRec
  | [], db => (0, db)
  | (c, fa) :: rest, db =>
    let p := insert_or_update_jobE db c t fa
    let q := processBatchE t rest p.2
    ((if p.1 then 1 else 0) + q.1, q.2)

/-! ## Batch duplicate sweep (`find_true_duplicates.remove_duplicates`)

The SQL groups rows `WHERE title IS NOT NULL AND company IS NOT NULL AND
location IS NOT NULL` by `(title, company, location, SUBSTR(description, 1,
200))` (`SUBSTR` of `NULL` is `NULL`, and `GROUP BY` puts `NULL` snippets in
one group), orders each group's ids by `first_seen` ascending, and `HAVING
count > 1` keeps the groups of two or more.  SQL prescribes no order on the
groups themselves, and no tie-break among equal `first_seen`; the model fixes
both deterministically. -/

/-- A grouping key. -/
abbrev SweepKey := String × String × String × Option (List Char)

/-- The grouping key of a row: `none` when the `WHERE` clause excludes it. -/
def rowKey (r : JobRec) : Option SweepKey :=
  match r.title, r.company, r.location with
  | some tt, some cc, some ll => some (tt, cc, ll, r.description.map (fun d => d.toList.take 200))
  | _, _, _ => none

/-- The distinct keys of a row list (each key once). -/
def keysOf : List JobRec → List SweepKey
  | [] => []
  | r :: rest =>
    let ks := keysOf rest
    match rowKey r with
    | none => ks
    | some k => if k ∈ ks then ks else k :: ks

/-- The rows of one group. -/
def groupOf (rows : List JobRec) (k : SweepKey) : List JobRec :=
  rows.filter (fun r => decide (rowKey r = some k))

/-- The keys whose groups the `HAVING count > 1` clause keeps. -/
def dupKeys (rows : List JobRec) : List SweepKey :=
  (keysOf rows).filter (fun k => decide (1 < (groupOf rows k).length))

/-- Insertion step of sorting by `first_seen`. -/
def insFS (r : JobRec) : List JobRec → List JobRec
  | [] => [r]
  | x :: xs => if r.first_seen < x.first_seen then r :: x :: xs else x :: insFS r xs

/-- `ORDER BY first_seen ASC` on a group. -/
def sortFS : List JobRec → List JobRec
  | [] => []
  | x :: xs => insFS x (sortFS xs)

/-- `keep_id = ids[0]; remove_ids = ids[1:]` for one group. -/
def planOf (rows : List JobRec) (k : SweepKey) : Nat × List Nat :=
  match (sortFS (groupOf rows k)).map (fun r => r.id) with
  | [] => (0, [])
  | keep :: rest => (keep, rest)

/-- The removal plan: per duplicate group, the kept id and the ids slated for
deletion (printed in both modes). -/
def plans (rows : List JobRec) : List (Nat × List Nat) :=
  (dupKeys rows).map (planOf rows)

/-- What `remove_duplicates` produces: the table left behind, the returned
`total_removed`, and the per-group report it printed. -/
structure SweepResult where
  rows : List JobRec
  removed : Nat
  plan : List (Nat × List Nat)
deriving Repr, DecidableEq

/-- `for remove_id in remove_ids: DELETE FROM jobs WHERE id = ?;
total_removed += 1`. -/
def deleteIds : List Nat → List JobRec × Nat → List JobRec × Nat
  | [], acc => acc
  | i :: is, acc => deleteIds is (acc.1.filter (fun r => !(r.id == i)), acc.2 + 1)

/-- `find_true_duplicates.remove_duplicates(dry_run)` (the same algorithm as
`remove_duplicates_simple.remove_duplicates`, which is the `dry_run=False`
case): compute the duplicate groups and their ordered ids up front, then — in
a destructive run — delete every non-first id of every group, returning
`total_removed` (0 in a dry run, which deletes nothing). -/
def remove_duplicates (rows : List JobRec) (dry_run : Bool) : SweepResult :=
  let ps := plans rows
  if dry_run then { rows := rows, removed := 0, plan := ps }
  else
    let fin := ps.foldl (fun acc p => deleteIds p.2 acc) (rows, 0)
    { rows := fin.1, removed := fin.2, plan := ps }

/-! ## Concrete instances

Fixtures for the concrete scenarios of the spec (a stored "Backend Engineer"
row, a renamed-URL candidate for it, degenerate candidates, and a three-row
duplicate group with ids 10 < 11 < 12 by `first_seen`). -/

/-- A stored row, as in the spec's URL-rename example. -/
def sampleRow : JobRec :=
  { id := 1
    url := some "a"
    title := some "Backend Engineer"
    company := some "Acme"
    location := some "Auckland"
    region := some "Auckland"
    salary := none
    date_listed := none
    job_type := none
    description := some "We need..."
    first_seen := 1
    last_seen := 1
    is_active := true
    triage_status := none }

/-- The same job under a different URL. -/
def sampleCand : Candidate :=
  { url := some "b"
    title := some "Backend Engineer"
    company := some "Acme"
    location := some "Auckland"
    description := some "We need..."
    salary := none
    date_listed := none
    job_type := none }

/-- A candidate with a url but no title, company, location or description. -/
def candNoIdentity : Candidate :=
  { url := some "u"
    title := none
    company := none
    location := none
    description := none
    salary := none
    date_listed := none
    job_type := none }

/-- A candidate whose `url` key is missing. -/
def candNoUrl : Candidate :=
  { url := none
    title := some "Backend Engineer"
    company := some "Acme"
    location := some "Auckland"
    description := some "We need..."
    salary := none
    date_listed := none
    job_type := none }

/-- One member of a three-row duplicate group. -/
def dupRow (i fs : Nat) (u : String) : JobRec :=
  { id := i
    url := some u
    title := some "Backend Engineer"
    company := some "Acme"
    location := some "Auckland"
    region := some "Auckland"
    salary := none
    date_listed := none
    job_type := none
    description := some "We need..."
    first_seen := fs
    last_seen := fs
    is_active := true
    triage_status := none }

/-- The three-row duplicate group of the spec's sweep example. -/
def dupRows : List JobRec :=
  [dupRow 10 1 "x", dupRow 11 2 "y", dupRow 12 3 "z"]

/-- Does a stored row match a candidate under the upsert's identity rule
(exact url, or title+company+location plus equal 200-character description
snippets)? -/
def matchesCand (r : JobRec) (c : Candidate) : Bool :=
  eqCol r.url c.url || (keyMatch r c && decide (snippet r.description = snippet c.description))

/-- Is there a row of the same sweep key strictly earlier by `first_seen`?
(Such a row is exactly what makes `r` a removal candidate of the sweep.) -/
def sameKeyEarlier (rows : List JobRec) (r : JobRec) : Bool :=
  match rowKey r with
  | none => false
  | some k => rows.any (fun x => decide (rowKey x = some k) && x.first_seen < r.first_seen)

/-- All ids slated for removal, across the duplicate groups. -/
def removalIds (rows : List JobRec) : List Nat :=
  (plans rows).foldr (fun p acc => p.2 ++ acc) []

-- DEFS_MARKER

/-- Evaluating the Python dict literal: the duplicate keys "Frankton" and
"Richmond" keep their first position but take their later values
("Queenstown", "Nelson"). -/
theorem LOCATION_MAPPING_eval : LOCATION_MAPPING = LOCATION_MAPPING_items := by decide

/-! ## Small reduction lemmas -/

/-- A run without injected failure never raises. -/
theorem raiseAt_none (ctr : Nat) : raiseAt none ctr = false := rfl

/-- `total_removed` grows by one per executed `DELETE`. -/
theorem deleteIds_snd (ids : List Nat) :
    ∀ acc : List JobRec × Nat, (deleteIds ids acc).2 = acc.2 + ids.length := by
  induction ids with
  | nil => intro acc; rfl
  | cons i is ih =>
    intro acc
    simp only [deleteIds, ih, List.length_cons]
    omega

/-- The destructive fold's removed-count is the total size of the removal
lists. -/
theorem sweep_fold_removed (ps : List (Nat × List Nat)) :
    ∀ acc : List JobRec × Nat,
      (ps.foldl (fun acc p => deleteIds p.2 acc) acc).2
        = acc.2 + (ps.map (fun p => p.2.length)).sum := by
  induction ps with
  | nil => intro acc; simp
  | cons p ps ih =>
    intro acc
    simp only [List.foldl_cons, List.map_cons, List.sum_cons, ih, deleteIds_snd]
    omega

/-- C6: `resolve` with `dry_run = true` returns the store untouched (no row
deleted, inserted or modified), reports the same per-group plan (keeper id
and would-be-removed ids) as a destructive run would execute, and the
aggregate count it prints (the total size of the removal lists) equals the
count a destructive run returns. -/
theorem dry_run_pure (rows : List JobRec) :
    remove_duplicates rows true = { rows := rows, removed := 0, plan := plans rows }
    ∧ (remove_duplicates rows true).plan = (remove_duplicates rows false).plan
    ∧ ((remove_duplicates rows true).plan.map (fun p => p.2.length)).sum
        = (remove_duplicates rows false).removed := by
  refine ⟨rfl, rfl, ?_⟩
  show ((plans rows).map (fun p => p.2.length)).sum
      = (remove_duplicates rows false).removed
  simp [remove_duplicates, sweep_fold_removed]

/-- C7 (the code side of the parse/shape-failure claim): a candidate that has
a `url` but no `title`, `company` or `location` is not rejected — the insert
branch runs and stores a row whose identity-key columns are `NULL`, returning
`True`; only a candidate with no `url` key at all is rejected without a write
(the `KeyError` lands in the `except` handler). -/
theorem upsert_inserts_null_identity :
    (insert_or_update_job [] candNoIdentity 5).1 = true
    ∧ (insert_or_update_job [] candNoIdentity 5).2.map (fun r => r.title) = [none]
    ∧ (insert_or_update_job [] candNoIdentity 5).2.map (fun r => r.company) = [none]
    ∧ (insert_or_update_job [] candNoIdentity 5).2.length = 1
    ∧ insert_or_update_job [] candNoUrl 5 = (false, []) := by
  refine ⟨rfl, rfl, rfl, rfl, rfl⟩

/-! ## Failure semantics of the upsert (claim C8) -/

/-- A failure-free duplicate scan always completes. -/
theorem dupScanE_none_total (db : List JobRec) (snip : List Char) (t : Nat) :
    ∀ (dups : List JobRec) (ctr : Nat),
      ∃ res n, dupScanE db snip t none dups ctr = some (res, n) := by
  intro dups
  induction dups with
  | nil => exact fun ctr => ⟨none, ctr, rfl⟩
  | cons d rest ih =>
    intro ctr
    simp only [dupScanE, raiseAt_none, Bool.false_eq_true, if_false]
    cases hf : db.filter (fun r => r.id == d.id) with
    | nil => exact ih (ctr + 1)
    | cons r rs =>
      by_cases hs : (snippet r.description == snip) = true
      · exact ⟨some (db.map fun x => if x.id == d.id then touch x t else x), ctr + 2,
          by simp [hs]⟩
      · simpa [hs] using ih (ctr + 1)

/-- A duplicate scan with an injected failure either raises or agrees with
the failure-free scan. -/
theorem dupScanE_fail_cases (db : List JobRec) (snip : List Char) (t : Nat) (k : Nat) :
    ∀ (dups : List JobRec) (ctr : Nat),
      dupScanE db snip t (some k) dups ctr = none
      ∨ dupScanE db snip t (some k) dups ctr = dupScanE db snip t none dups ctr := by
  intro dups
  induction dups with
  | nil => exact fun ctr => Or.inr rfl
  | cons d rest ih =>
    intro ctr
    by_cases hr : raiseAt (some k) ctr = true
    · exact Or.inl (by simp [dupScanE, hr])
    · simp only [dupScanE, hr, raiseAt_none, Bool.false_eq_true, if_false]
      cases hf : db.filter (fun r => r.id == d.id) with
      | nil => exact ih (ctr + 1)
      | cons r rs =>
        by_cases hs : (snippet r.description == snip) = true
        · by_cases hr2 : raiseAt (some k) (ctr + 1) = true
          · exact Or.inl (by simp [hs, hr2])
          · exact Or.inr (by simp [hs, hr2])
        · simpa [hs] using ih (ctr + 1)

/-- An upsert call with a failure injected at any operation either behaves
exactly like the failure-free call, or returns `False` with the store
untouched: every client operation in the source is read-only or immediately
followed by a `return`, and the `except` handler returns `False`. -/
theorem upsert_fail_cases (db : List JobRec) (c : Candidate) (t : Nat) (k : Nat) :
    insert_or_update_jobE db c t (some k) = insert_or_update_job db c t
    ∨ insert_or_update_jobE db c t (some k) = (false, db) := by
  unfold insert_or_update_job
  cases hc : c.url with
  | none => exact Or.inl (by simp [insert_or_update_jobE, hc])
  | some u =>
    by_cases h0 : raiseAt (some k) 0 = true
    · exact Or.inr (by simp [insert_or_update_jobE, hc, h0])
    · by_cases hany : (db.any fun r => urlMatch r u) = true
      · by_cases h1 : raiseAt (some k) 1 = true
        · exact Or.inr (by simp [insert_or_update_jobE, hc, h0, h1, hany])
        · exact Or.inl (by simp [insert_or_update_jobE, hc, h0, h1, hany, raiseAt_none])
      · by_cases h1 : raiseAt (some k) 1 = true
        · exact Or.inr (by simp [insert_or_update_jobE, hc, h0, h1, hany])
        · rcases dupScanE_fail_cases db (snippet c.description) t k
            (db.filter fun r => keyMatch r c) 2 with hsc | hsc
          · exact Or.inr (by simp [insert_or_update_jobE, hc, h0, h1, hany, hsc])
          · obtain ⟨res, n, hn⟩ :=
              dupScanE_none_total db (snippet c.description) t
                (db.filter fun r => keyMatch r c) 2
            rw [hn] at hsc
            cases res with
            | some db2 =>
              exact Or.inl (by
                simp [insert_or_update_jobE, hc, h0, h1, hany, hsc, hn, raiseAt_none])
            | none =>
              by_cases hk : raiseAt (some k) n = true
              · exact Or.inr (by
                  simp [insert_or_update_jobE, hc, h0, h1, hany, hsc, hn, hk])
              · exact Or.inl (by
                  simp [insert_or_update_jobE, hc, h0, h1, hany, hsc, hn, hk, raiseAt_none])

/-- A failure at the very first operation swallows the candidate: `False` is
returned and the store is untouched. -/
theorem upsert_fail_first (db : List JobRec) (c : Candidate) (t : Nat) :
    insert_or_update_jobE db c t (some 0) = (false, db) := by
  cases hc : c.url with
  | none => simp [insert_or_update_jobE, hc]
  | some u => simp [insert_or_update_jobE, hc, raiseAt]

/-- C8 (amended): every persistence error is caught inside
`insert_or_update_job`; the call then returns `False` — the very value the
`Updated` outcome returns, so the caller cannot distinguish an error from an
update — with the store unchanged.  There is no internal retry (a failing
run performs nothing beyond its completed read-only operations), and the
surrounding save loop goes on: a candidate whose upsert fails is skipped,
the rest of the batch proceeding exactly as if that candidate were absent. -/
theorem upsert_error_swallowed_batch_continues :
    (∀ (db : List JobRec) (c : Candidate) (t k : Nat),
      insert_or_update_jobE db c t (some k) = insert_or_update_job db c t
      ∨ insert_or_update_jobE db c t (some k) = (false, db))
    ∧ (∀ (t : Nat) (c : Candidate) (rest : List (Candidate × Option Nat))
        (db : List JobRec),
      processBatchE t ((c, some 0) :: rest) db = processBatchE t rest db) := by
  refine ⟨fun db c t k => upsert_fail_cases db c t k, fun t c rest db => ?_⟩
  simp [processBatchE, upsert_fail_first]

/-- C8 (counterexample to the claim as stated): the caller cannot tell a
persistence failure from a successful update.  A run whose very first lookup
raises returns `False` (store untouched) — and a perfectly successful
URL-match update returns the same `False`. -/
theorem upsert_error_conflated_with_update :
    insert_or_update_jobE [] sampleCand 7 (some 0) = (false, [])
    ∧ (insert_or_update_job [sampleRow]
        { sampleCand with url := some "a" } 7).1 = false := by
  refine ⟨upsert_fail_first [] sampleCand 7, rfl⟩

/-! ## Region computation (claims C5 and C10) -/

/-- `get_region` with the dict literal already evaluated — the form used to
compute concrete examples. -/
theorem get_region_items (location : String) :
    get_region location
      = (if location == "" then "Other NZ"
         else
           match scanMapping LOCATION_MAPPING_items (normLoc location) with
           | some region => region
           | none =>
             match scanRegions REGIONS (normLoc location) with
             | some region => region
             | none => "Other NZ") := by
  unfold get_region
  rw [LOCATION_MAPPING_eval]

/-- The keyword loop is a first-match scan. -/
theorem scanMapping_eq_find (l : List (String × String)) (loc : List Char) :
    scanMapping l loc
      = (l.find? (fun p => containsSub (lowerChars p.1.toList) loc)).map (fun p => p.2) := by
  induction l with
  | nil => rfl
  | cons p rest ih =>
    cases p with
    | mk k v =>
      by_cases h : containsSub (lowerChars k.toList) loc = true
      · have hfind : List.find? (fun p => containsSub (lowerChars p.1.toList) loc)
            ((k, v) :: rest) = some (k, v) := by
          apply List.find?_cons_of_pos
          exact h
        rw [hfind]
        simp only [String.toList] at h
        simp [scanMapping, h]
      · have hfind : List.find? (fun p => containsSub (lowerChars p.1.toList) loc)
            ((k, v) :: rest)
            = List.find? (fun p => containsSub (lowerChars p.1.toList) loc) rest := by
          apply List.find?_cons_of_neg
          simpa using h
        rw [hfind]
        simp only [String.toList] at h ih
        simp [scanMapping, h, ih]

/-- The region-name fallback loop is a first-match scan. -/
theorem scanRegions_eq_find (l : List String) (loc : List Char) :
    scanRegions l loc = l.find? (fun r => containsSub (lowerChars r.toList) loc) := by
  induction l with
  | nil => rfl
  | cons r rest ih =>
    by_cases h : containsSub (lowerChars r.toList) loc = true
    · have hfind : List.find? (fun r => containsSub (lowerChars r.toList) loc)
          (r :: rest) = some r := by
        apply List.find?_cons_of_pos
        exact h
      rw [hfind]
      simp only [String.toList] at h
      simp [scanRegions, h]
    · have hfind : List.find? (fun r => containsSub (lowerChars r.toList) loc)
          (r :: rest) = List.find? (fun r => containsSub (lowerChars r.toList) loc) rest := by
        apply List.find?_cons_of_neg
        simpa using h
      rw [hfind]
      simp only [String.toList] at h ih
      simp [scanRegions, h, ih]

/-- C5: `get_region` is the first-match-wins scan the spec describes — the
region of the first `LOCATION_MAPPING` entry whose lowercased keyword is a
substring of the lowercased (stripped) location, else the first `REGIONS`
name that is such a substring, else the sentinel `"Other NZ"` — and, being a
pure function of its argument, it is deterministic regardless of call order;
on the spec's examples it yields `"Auckland"` and the sentinel. -/
theorem get_region_first_match_wins (loc : String) :
    get_region loc
      = (if loc == "" then "Other NZ"
         else
           match LOCATION_MAPPING.find?
               (fun p => containsSub (lowerChars p.1.toList) (normLoc loc)) with
           | some p => p.2
           | none =>
             match REGIONS.find?
                 (fun r => containsSub (lowerChars r.toList) (normLoc loc)) with
             | some r => r
             | none => "Other NZ")
    ∧ get_region "123 Queen St, Auckland CBD" = "Auckland"
    ∧ get_region "somewhere with no match" = "Other NZ" := by
  refine ⟨?_, ?_, ?_⟩
  · cases hb : (loc == "") with
    | true => simp [get_region, hb]
    | false =>
      simp only [get_region, hb, Bool.false_eq_true, if_false,
        scanMapping_eq_find, scanRegions_eq_find]
      cases LOCATION_MAPPING.find?
          (fun p => containsSub (lowerChars p.1.toList) (normLoc loc)) with
      | some p => rfl
      | none =>
        cases REGIONS.find? (fun r => containsSub (lowerChars r.toList) (normLoc loc)) with
        | some r => rfl
        | none => rfl
  · rw [get_region_items]
    decide
  · rw [get_region_items]
    decide

/-- A scan skips over a prefix none of whose keywords match. -/
theorem scanMapping_append_none {loc : List Char} :
    ∀ {l₁ l₂ : List (String × String)},
      (∀ p ∈ l₁, containsSub (lowerChars p.1.toList) loc = false) →
      scanMapping (l₁ ++ l₂) loc = scanMapping l₂ loc := by
  intro l₁
  induction l₁ with
  | nil => intro l₂ _; rfl
  | cons p rest ih =>
    intro l₂ h
    cases p with
    | mk k v =>
      have hk := h (k, v) (List.mem_cons_self _ _)
      simp only [List.cons_append, scanMapping, hk, Bool.false_eq_true, if_false]
      exact ih fun q hq => h q (List.mem_cons_of_mem _ hq)

/-- The first element left by `dropWhile` fails the predicate. -/
theorem dropWhile_head_false {α : Type} {p : α → Bool} :
    ∀ {l : List α} {x : α} {xs : List α}, l.dropWhile p = x :: xs → p x = false := by
  intro l
  induction l with
  | nil => intro x xs h; simp [List.dropWhile] at h
  | cons a as ih =>
    intro x xs h
    rw [List.dropWhile_cons] at h
    by_cases ha : p a = true
    · rw [if_pos ha] at h
      exact ih h
    · rw [if_neg ha] at h
      cases h
      exact Bool.eq_false_iff.mpr ha

/-- Members of `dropWhile` are members of the list. -/
theorem mem_of_mem_dropWhile {α : Type} {p : α → Bool} :
    ∀ {l : List α} {a : α}, a ∈ l.dropWhile p → a ∈ l := by
  intro l
  induction l with
  | nil => intro a h; simpa [List.dropWhile] using h
  | cons b bs ih =>
    intro a h
    rw [List.dropWhile_cons] at h
    by_cases hb : p b = true
    · rw [if_pos hb] at h
      exact List.mem_cons_of_mem _ (ih h)
    · rw [if_neg hb] at h
      exact h

/-- If every binding of `key` in the iterated dict carries `target`, and no
keyword before the `key` entry matches the location while `key` itself does,
then `get_region` returns `target`. -/
theorem get_region_of_shadowed_key (key target : String)
    (hkne : (lowerChars key.toList).isEmpty = false)
    (hmem : ∃ q ∈ LOCATION_MAPPING, q.1 = key)
    (hval : ∀ p ∈ LOCATION_MAPPING, p.1 = key → p.2 = target)
    (loc : String)
    (hsub : containsSub (lowerChars key.toList) (normLoc loc) = true)
    (hbefore : ∀ p ∈ LOCATION_MAPPING.takeWhile (fun q => !(q.1 == key)),
      containsSub (lowerChars p.1.toList) (normLoc loc) = false) :
    get_region loc = target := by
  have hne : (loc == "") = false := by
    cases hb : (loc == "") with
    | false => rfl
    | true =>
      have hloc : loc = "" := eq_of_beq hb
      subst hloc
      have : normLoc "" = [] := rfl
      rw [this] at hsub
      simp only [containsSub] at hsub
      rw [hsub] at hkne
      cases hkne
  obtain ⟨q, hq, hqk⟩ := hmem
  have hdw : LOCATION_MAPPING.dropWhile (fun q => !(q.1 == key)) ≠ [] := by
    intro hnil
    have hall := List.dropWhile_eq_nil_iff.mp hnil q hq
    rw [hqk] at hall
    simp at hall
  cases hd : LOCATION_MAPPING.dropWhile (fun q => !(q.1 == key)) with
  | nil => exact absurd hd hdw
  | cons x xs =>
    have hx_false := dropWhile_head_false hd
    have hx1 : x.1 = key := by
      have : (x.1 == key) = true := by
        cases hxx : (x.1 == key) with
        | true => rfl
        | false => rw [hxx] at hx_false; cases hx_false
      exact eq_of_beq this
    have hx_mem : x ∈ LOCATION_MAPPING :=
      mem_of_mem_dropWhile (by rw [hd]; exact List.mem_cons_self _ _)
    have hx2 : x.2 = target := hval x hx_mem hx1
    have hsplit := List.takeWhile_append_dropWhile
      (p := fun q : String × String => !(q.1 == key)) (l := LOCATION_MAPPING)
    simp only [get_region, hne, Bool.false_eq_true, if_false]
    rw [← hsplit, scanMapping_append_none hbefore, hd]
    cases x with
    | mk k1 v1 =>
      have hk1 : k1 = key := hx1
      subst hk1
      simp only [scanMapping, hsub, if_true]
      simpa using hx2

/-- C10: in `LOCATION_MAPPING` the later duplicate dict keys silently
replaced the earlier ones: every surviving "Frankton" binding maps to
"Queenstown" (never "Hamilton") and every surviving "Richmond" binding maps
to "Nelson" (never "Christchurch").  Consequently, for any location that
contains "frankton" and matches no keyword placed before the "Frankton"
entry, `get_region` returns "Queenstown"; likewise "Richmond" yields
"Nelson". -/
theorem frankton_richmond_shadowed :
    (∀ p ∈ LOCATION_MAPPING, p.1 = "Frankton" → p.2 = "Queenstown")
    ∧ (∀ p ∈ LOCATION_MAPPING, p.1 = "Richmond" → p.2 = "Nelson")
    ∧ (∀ loc : String,
        containsSub (lowerChars "Frankton".toList) (normLoc loc) = true →
        (∀ p ∈ LOCATION_MAPPING.takeWhile (fun q => !(q.1 == "Frankton")),
          containsSub (lowerChars p.1.toList) (normLoc loc) = false) →
        get_region loc = "Queenstown")
    ∧ (∀ loc : String,
        containsSub (lowerChars "Richmond".toList) (normLoc loc) = true →
        (∀ p ∈ LOCATION_MAPPING.takeWhile (fun q => !(q.1 == "Richmond")),
          containsSub (lowerChars p.1.toList) (normLoc loc) = false) →
        get_region loc = "Nelson") := by
  have hf : ∀ p ∈ LOCATION_MAPPING, p.1 = "Frankton" → p.2 = "Queenstown" := by
    rw [LOCATION_MAPPING_eval]; decide
  have hr : ∀ p ∈ LOCATION_MAPPING, p.1 = "Richmond" → p.2 = "Nelson" := by
    rw [LOCATION_MAPPING_eval]; decide
  have hfm : ∃ q ∈ LOCATION_MAPPING, q.1 = "Frankton" := by
    rw [LOCATION_MAPPING_eval]; decide
  have hrm : ∃ q ∈ LOCATION_MAPPING, q.1 = "Richmond" := by
    rw [LOCATION_MAPPING_eval]; decide
  exact ⟨hf, hr,
    fun loc hsub hbefore =>
      get_region_of_shadowed_key "Frankton" "Queenstown" rfl hfm hf loc hsub hbefore,
    fun loc hsub hbefore =>
      get_region_of_shadowed_key "Richmond" "Nelson" rfl hrm hr loc hsub hbefore⟩

/-- C10 witness: the location "Frankton" itself matches no earlier keyword,
so it classifies as "Queenstown" (and "Richmond" as "Nelson"). -/
theorem frankton_richmond_shadowed_witness :
    get_region "Frankton" = "Queenstown" ∧ get_region "Richmond" = "Nelson" :=
  ⟨frankton_richmond_shadowed.2.2.1 "Frankton" (by decide)
      (by simp only [LOCATION_MAPPING_eval]; decide),
    frankton_richmond_shadowed.2.2.2 "Richmond" (by decide)
      (by simp only [LOCATION_MAPPING_eval]; decide)⟩

/-! ## The upsert's duplicate path (claims C1, C3, C9) -/

/-- With unique primary keys, the per-duplicate select by id fetches exactly
that row. -/
theorem filter_id_singleton :
    ∀ (db : List JobRec), (db.map (fun r => r.id)).Nodup →
      ∀ r ∈ db, db.filter (fun x => x.id == r.id) = [r] := by
  intro db
  induction db with
  | nil => intro _ r hr; cases hr
  | cons a rest ih =>
    intro hnd r hr
    rw [List.map_cons, List.nodup_cons] at hnd
    obtain ⟨ha, hrest⟩ := hnd
    rcases List.mem_cons.mp hr with rfl | hr2
    · rw [List.filter_cons_of_pos (by simp)]
      have hnil : rest.filter (fun x => x.id == r.id) = [] := by
        rw [List.filter_eq_nil_iff]
        intro x hx hbeq
        have hxe : x.id = r.id := by simpa using hbeq
        exact ha (List.mem_map.mpr ⟨x, hx, hxe⟩)
      rw [hnil]
    · have hne : (a.id == r.id) = false := by
        cases hb : (a.id == r.id) with
        | false => rfl
        | true =>
          exact absurd (List.mem_map.mpr ⟨r, hr2, (eq_of_beq hb).symm⟩) ha
      rw [List.filter_cons_of_neg (by simp [hne])]
      exact ih hrest r hr2

/-- Unique primary keys make the id a faithful identifier among the rows. -/
theorem id_inj (db : List JobRec) (hnd : (db.map (fun r => r.id)).Nodup) :
    ∀ a ∈ db, ∀ b ∈ db, a.id = b.id → a = b := by
  intro a ha b hb heq
  have h1 := filter_id_singleton db hnd b hb
  have h2 : a ∈ db.filter (fun x => x.id == b.id) :=
    List.mem_filter.mpr ⟨ha, by simp [heq]⟩
  rw [h1] at h2
  simpa using h2

/-- When every duplicate-query row fetches itself and none matches the
candidate's snippet, the scan reports no duplicate. -/
theorem dupScanE_none_notfound (db : List JobRec) (snip : List Char) (t : Nat) :
    ∀ (dups : List JobRec) (ctr : Nat),
      (∀ x ∈ dups, db.filter (fun r => r.id == x.id) = [x]) →
      (∀ x ∈ dups, (snippet x.description == snip) = false) →
      ∃ n, dupScanE db snip t none dups ctr = some (none, n) := by
  intro dups
  induction dups with
  | nil => intro ctr _ _; exact ⟨ctr, rfl⟩
  | cons a rest ih =>
    intro ctr hsingle hnone
    have ha := hsingle a (List.mem_cons_self _ _)
    have hs := hnone a (List.mem_cons_self _ _)
    simp only [dupScanE, raiseAt_none, Bool.false_eq_true, if_false, ha, hs]
    exact ih (ctr + 1) (fun x hx => hsingle x (List.mem_cons_of_mem _ hx))
      (fun x hx => hnone x (List.mem_cons_of_mem _ hx))

/-- When the first snippet match in the duplicate-query rows is `d`, the scan
touches exactly the rows with `d`'s id. -/
theorem dupScanE_none_found (db : List JobRec) (snip : List Char) (t : Nat) :
    ∀ (dups : List JobRec) (ctr : Nat) (d : JobRec),
      (∀ x ∈ dups, db.filter (fun r => r.id == x.id) = [x]) →
      dups.find? (fun x => snippet x.description == snip) = some d →
      ∃ n, dupScanE db snip t none dups ctr
        = some (some (db.map fun x => if x.id == d.id then touch x t else x), n) := by
  intro dups
  induction dups with
  | nil => intro ctr d _ hf; simp at hf
  | cons a rest ih =>
    intro ctr d hsingle hf
    have ha := hsingle a (List.mem_cons_self _ _)
    simp only [dupScanE, raiseAt_none, Bool.false_eq_true, if_false, ha]
    rcases List.find?_cons_eq_some.mp hf with ⟨hpa, rfl⟩ | ⟨hpa, hrest⟩
    · simp only [hpa, if_true]
      exact ⟨ctr + 2, rfl⟩
    · have hs : (snippet a.description == snip) = false := by
        cases hb : (snippet a.description == snip) with
        | false => rfl
        | true => rw [hb] at hpa; cases hpa
      simp only [hs, Bool.false_eq_true, if_false]
      exact ih (ctr + 1) d (fun x hx => hsingle x (List.mem_cons_of_mem _ hx)) hrest

/-- Whatever table the failure-free scan reports back is the original with
the rows of one id touched. -/
theorem dupScanE_some_shape (db : List JobRec) (snip : List Char) (t : Nat) :
    ∀ (dups : List JobRec) (ctr : Nat) (db2 : List JobRec) (n : Nat),
      dupScanE db snip t none dups ctr = some (some db2, n) →
      ∃ i, db2 = db.map fun x => if x.id == i then touch x t else x := by
  intro dups
  induction dups with
  | nil => intro ctr db2 n h; simp [dupScanE] at h
  | cons a rest ih =>
    intro ctr db2 n h
    simp only [dupScanE, raiseAt_none, Bool.false_eq_true, if_false] at h
    cases hf : db.filter (fun r => r.id == a.id) with
    | nil =>
      rw [hf] at h
      exact ih (ctr + 1) db2 n h
    | cons r rs =>
      rw [hf] at h
      by_cases hs : (snippet r.description == snip) = true
      · simp only [hs, if_true, raiseAt_none, Bool.false_eq_true, if_false,
          Option.some.injEq, Prod.mk.injEq] at h
        exact ⟨a.id, h.1.symm⟩
      · simp only [hs, Bool.false_eq_true, if_false] at h
        exact ih (ctr + 1) db2 n h

/-- Touching a row by id inside a table with unique ids rewrites exactly the
distinguished position. -/
theorem map_touch_split (l1 : List JobRec) (d : JobRec) (l2 : List JobRec) (t : Nat)
    (h : ∀ x ∈ l1 ++ l2, (x.id == d.id) = false) :
    (l1 ++ d :: l2).map (fun x => if x.id == d.id then touch x t else x)
      = l1 ++ touch d t :: l2 := by
  rw [List.map_append, List.map_cons]
  have h1 : l1.map (fun x => if x.id == d.id then touch x t else x) = l1 := by
    have : ∀ x ∈ l1, (if x.id == d.id then touch x t else x) = x := fun x hx => by
      rw [if_neg (by simp [h x (List.mem_append_left _ hx)])]
    rw [List.map_congr_left this]
    simp
  have h2 : l2.map (fun x => if x.id == d.id then touch x t else x) = l2 := by
    have : ∀ x ∈ l2, (if x.id == d.id then touch x t else x) = x := fun x hx => by
      rw [if_neg (by simp [h x (List.mem_append_right _ hx)])]
    rw [List.map_congr_left this]
    simp
  rw [h1, h2, if_pos (by simp)]

/-- A touched row changes none of its identifying columns. -/
theorem touch_if_frame (b : Bool) (x : JobRec) (t : Nat) :
    (if b = true then touch x t else x).url = x.url
    ∧ (if b = true then touch x t else x).description = x.description := by
  cases b with
  | false => exact ⟨rfl, rfl⟩
  | true => exact ⟨rfl, rfl⟩

/-- C1: URL-rename invariance.  For a store with unique ids, if the
candidate's url matches no stored row but some stored row agrees on title,
company and location and on the first 200 characters of description, the
upsert returns `Updated` (`False`), the row count is unchanged, the stored
urls and descriptions are all kept (the candidate's are discarded), and the
store is the old store with exactly one such matching row touched in
`last_seen`/`is_active` only. -/
theorem upsert_url_rename_invariance (db : List JobRec) (c : Candidate) (t : Nat)
    (u : String)
    (hu : c.url = some u)
    (hid : (db.map (fun r => r.id)).Nodup)
    (hnourl : ∀ r ∈ db, urlMatch r u = false)
    (r0 : JobRec) (hr0 : r0 ∈ db) (hkey : keyMatch r0 c = true)
    (hsnip : snippet r0.description = snippet c.description) :
    (insert_or_update_job db c t).1 = false
    ∧ (insert_or_update_job db c t).2.length = db.length
    ∧ (insert_or_update_job db c t).2.map (fun r => r.url) = db.map (fun r => r.url)
    ∧ (insert_or_update_job db c t).2.map (fun r => r.description)
        = db.map (fun r => r.description)
    ∧ ∃ l1 rm l2, db = l1 ++ rm :: l2 ∧ keyMatch rm c = true
        ∧ snippet rm.description = snippet c.description
        ∧ (insert_or_update_job db c t).2 = l1 ++ touch rm t :: l2 := by
  have hany : (db.any fun r => urlMatch r u) = false :=
    List.any_eq_false.mpr fun r hr => by simp [hnourl r hr]
  have hsingle : ∀ x ∈ db.filter (fun r => keyMatch r c),
      db.filter (fun r => r.id == x.id) = [x] :=
    fun x hx => filter_id_singleton db hid x (List.mem_filter.mp hx).1
  have hmemf : r0 ∈ db.filter (fun r => keyMatch r c) := List.mem_filter.mpr ⟨hr0, hkey⟩
  have hexists : ((db.filter (fun r => keyMatch r c)).find?
      (fun x => snippet x.description == snippet c.description)).isSome :=
    List.find?_isSome.mpr ⟨r0, hmemf, by simp [hsnip]⟩
  obtain ⟨d, hd⟩ := Option.isSome_iff_exists.mp hexists
  have hdmem := List.mem_of_find?_eq_some hd
  have hdpred := List.find?_some hd
  have hdkey : keyMatch d c = true := (List.mem_filter.mp hdmem).2
  have hddb : d ∈ db := (List.mem_filter.mp hdmem).1
  have hdsnip : snippet d.description = snippet c.description := eq_of_beq hdpred
  obtain ⟨n, hscan⟩ :=
    dupScanE_none_found db (snippet c.description) t (db.filter (fun r => keyMatch r c))
      2 d hsingle hd
  have hred : insert_or_update_job db c t
      = (false, db.map fun x => if x.id == d.id then touch x t else x) := by
    simp [insert_or_update_job, insert_or_update_jobE, hu, raiseAt_none, hany, hscan]
  obtain ⟨l1, l2, hsplit⟩ := List.append_of_mem hddb
  have hid2 := hid
  rw [hsplit, List.map_append, List.map_cons, List.nodup_middle, List.nodup_cons] at hid2
  obtain ⟨hdid, _⟩ := hid2
  have hids : ∀ x ∈ l1 ++ l2, (x.id == d.id) = false := by
    intro x hx
    cases hb : (x.id == d.id) with
    | false => rfl
    | true =>
      exfalso
      have hxid : x.id = d.id := by simpa using hb
      have hmem : d.id ∈ (l1 ++ l2).map (fun r => r.id) :=
        List.mem_map.mpr ⟨x, hx, hxid⟩
      rw [List.map_append] at hmem
      exact hdid hmem
  have hmap : db.map (fun x => if x.id == d.id then touch x t else x)
      = l1 ++ touch d t :: l2 := by
    rw [hsplit]
    exact map_touch_split l1 d l2 t hids
  refine ⟨by rw [hred], ?_, ?_, ?_,
    l1, d, l2, hsplit, hdkey, hdsnip, by rw [hred, hmap]⟩
  · rw [hred]
    simp
  · rw [hred, hmap, hsplit]
    simp [touch]
  · rw [hred, hmap, hsplit]
    simp [touch]

/-- C1 witness: the spec's concrete rename scenario (stored "Backend
Engineer" at Acme, Auckland; candidate identical except `url = "b"`). -/
theorem upsert_url_rename_invariance_witness :
    (insert_or_update_job [sampleRow] sampleCand 5).1 = false
    ∧ (insert_or_update_job [sampleRow] sampleCand 5).2.length = [sampleRow].length
    ∧ (insert_or_update_job [sampleRow] sampleCand 5).2.map (fun r => r.url)
        = [sampleRow].map (fun r => r.url)
    ∧ (insert_or_update_job [sampleRow] sampleCand 5).2.map (fun r => r.description)
        = [sampleRow].map (fun r => r.description)
    ∧ ∃ l1 rm l2, [sampleRow] = l1 ++ rm :: l2 ∧ keyMatch rm sampleCand = true
        ∧ snippet rm.description = snippet sampleCand.description
        ∧ (insert_or_update_job [sampleRow] sampleCand 5).2 = l1 ++ touch rm 5 :: l2 :=
  upsert_url_rename_invariance [sampleRow] sampleCand 5 "b" rfl (by decide)
    (by decide) sampleRow (by decide) (by decide) (by decide)

/-- C3: upsert idempotence.  For a store (unique ids) containing no match for
the candidate, the first upsert inserts one new row (`first_seen = last_seen
= t1`), and immediately re-upserting the same candidate returns `Updated`
(`False`), leaves the store with that single row for the candidate (row
count unchanged), and advances its `last_seen` to `t2` while `first_seen`
stays `t1`. -/
theorem upsert_idempotent (db : List JobRec) (c : Candidate) (t1 t2 : Nat) (u : String)
    (hu : c.url = some u)
    (hid : (db.map (fun r => r.id)).Nodup)
    (hnourl : ∀ r ∈ db, urlMatch r u = false)
    (hnokey : ∀ r ∈ db, keyMatch r c = true → snippet r.description ≠ snippet c.description) :
    (insert_or_update_job db c t1).1 = true
    ∧ (insert_or_update_job db c t1).2 = db ++ [mkRecord c u t1 (nextId db)]
    ∧ (insert_or_update_job (insert_or_update_job db c t1).2 c t2).1 = false
    ∧ (insert_or_update_job (insert_or_update_job db c t1).2 c t2).2
        = db ++ [touch (mkRecord c u t1 (nextId db)) t2]
    ∧ ((insert_or_update_job (insert_or_update_job db c t1).2 c t2).2.filter
        (fun r => matchesCand r c)).length = 1
    ∧ (mkRecord c u t1 (nextId db)).first_seen = t1
    ∧ (touch (mkRecord c u t1 (nextId db)) t2).first_seen = t1
    ∧ (touch (mkRecord c u t1 (nextId db)) t2).last_seen = t2 := by
  have hany : (db.any fun r => urlMatch r u) = false :=
    List.any_eq_false.mpr fun r hr => by simp [hnourl r hr]
  have hsingle : ∀ x ∈ db.filter (fun r => keyMatch r c),
      db.filter (fun r => r.id == x.id) = [x] :=
    fun x hx => filter_id_singleton db hid x (List.mem_filter.mp hx).1
  have hnone : ∀ x ∈ db.filter (fun r => keyMatch r c),
      (snippet x.description == snippet c.description) = false := by
    intro x hx
    obtain ⟨hxdb, hxkey⟩ := List.mem_filter.mp hx
    cases hb : (snippet x.description == snippet c.description) with
    | false => rfl
    | true => exact absurd (eq_of_beq hb) (hnokey x hxdb hxkey)
  obtain ⟨n, hscan⟩ := dupScanE_none_notfound db (snippet c.description) t1
    (db.filter (fun r => keyMatch r c)) 2 hsingle hnone
  have h1 : insert_or_update_job db c t1 = (true, db ++ [mkRecord c u t1 (nextId db)]) := by
    simp [insert_or_update_job, insert_or_update_jobE, hu, raiseAt_none, hany, hscan]
  have hRurl : urlMatch (mkRecord c u t1 (nextId db)) u = true := by
    simp [mkRecord, urlMatch, eqCol]
  have hany2 : ((db ++ [mkRecord c u t1 (nextId db)]).any fun r => urlMatch r u) = true := by
    simp [List.any_append, hRurl]
  have h2 : insert_or_update_job (db ++ [mkRecord c u t1 (nextId db)]) c t2
      = (false, (db ++ [mkRecord c u t1 (nextId db)]).map
          fun r => if urlMatch r u then touch r t2 else r) := by
    simp [insert_or_update_job, insert_or_update_jobE, hu, raiseAt_none, hany2]
  have hmap2 : (db ++ [mkRecord c u t1 (nextId db)]).map
      (fun r => if urlMatch r u then touch r t2 else r)
      = db ++ [touch (mkRecord c u t1 (nextId db)) t2] := by
    rw [List.map_append]
    congr 1
    · have hpt : ∀ r ∈ db, (if urlMatch r u then touch r t2 else r) = r := fun r hr => by
        rw [if_neg (by simp [hnourl r hr])]
      rw [List.map_congr_left hpt]
      simp
    · simp [hRurl]
  have hsnd1 : (insert_or_update_job db c t1).2 = db ++ [mkRecord c u t1 (nextId db)] := by
    rw [h1]
  have hfilt : ((db ++ [touch (mkRecord c u t1 (nextId db)) t2]).filter
      (fun r => matchesCand r c)).length = 1 := by
    rw [List.filter_append]
    have hdbnil : db.filter (fun r => matchesCand r c) = [] := by
      rw [List.filter_eq_nil_iff]
      intro r hr hm
      simp only [matchesCand, Bool.or_eq_true, Bool.and_eq_true] at hm
      rcases hm with hurl | ⟨hk, hds⟩
      · rw [hu] at hurl
        have hfalse := hnourl r hr
        simp only [urlMatch] at hfalse
        rw [hfalse] at hurl
        cases hurl
      · exact hnokey r hr hk (of_decide_eq_true hds)
    rw [hdbnil]
    have hmc : matchesCand (touch (mkRecord c u t1 (nextId db)) t2) c = true := by
      simp [matchesCand, touch, mkRecord, eqCol, hu]
    simp [hmc]
  refine ⟨by rw [h1], hsnd1, ?_, ?_, ?_, rfl, rfl, rfl⟩
  · rw [hsnd1, h2]
  · rw [hsnd1, h2]
    simpa using hmap2
  · rw [hsnd1, h2]
    have hgoal := hfilt
    rw [← hmap2] at hgoal
    simpa using hgoal

/-- C3 witness: the rename candidate upserted twice into an empty store. -/
theorem upsert_idempotent_witness :
    (insert_or_update_job [] sampleCand 3).1 = true
    ∧ (insert_or_update_job [] sampleCand 3).2 = [] ++ [mkRecord sampleCand "b" 3 (nextId [])]
    ∧ (insert_or_update_job (insert_or_update_job [] sampleCand 3).2 sampleCand 7).1 = false
    ∧ (insert_or_update_job (insert_or_update_job [] sampleCand 3).2 sampleCand 7).2
        = [] ++ [touch (mkRecord sampleCand "b" 3 (nextId [])) 7]
    ∧ ((insert_or_update_job (insert_or_update_job [] sampleCand 3).2 sampleCand 7).2.filter
        (fun r => matchesCand r sampleCand)).length = 1
    ∧ (mkRecord sampleCand "b" 3 (nextId [])).first_seen = 3
    ∧ (touch (mkRecord sampleCand "b" 3 (nextId [])) 7).first_seen = 3
    ∧ (touch (mkRecord sampleCand "b" 3 (nextId [])) 7).last_seen = 7 :=
  upsert_idempotent [] sampleCand 3 7 "b" rfl (by decide) (by decide) (by decide)

/-- Any upsert run that returns `False` leaves the store unchanged or
pointwise touches some rows (selected by url or by id), never inserting or
deleting. -/
theorem upsert_false_shape (db : List JobRec) (c : Candidate) (t : Nat)
    (h : (insert_or_update_job db c t).1 = false) :
    (insert_or_update_job db c t).2 = db
    ∨ ∃ p : JobRec → Bool, (insert_or_update_job db c t).2
        = db.map fun x => if p x then touch x t else x := by
  cases hc : c.url with
  | none =>
    left
    simp [insert_or_update_job, insert_or_update_jobE, hc]
  | some u =>
    by_cases hany : (db.any fun r => urlMatch r u) = true
    · right
      exact ⟨fun r => urlMatch r u, by
        simp [insert_or_update_job, insert_or_update_jobE, hc, raiseAt_none, hany]⟩
    · obtain ⟨res, n, hn⟩ := dupScanE_none_total db (snippet c.description) t
        (db.filter fun r => keyMatch r c) 2
      cases res with
      | some db2 =>
        obtain ⟨i, hi⟩ := dupScanE_some_shape db (snippet c.description) t
          (db.filter fun r => keyMatch r c) 2 db2 n hn
        right
        refine ⟨fun x => x.id == i, ?_⟩
        simp [insert_or_update_job, insert_or_update_jobE, hc, raiseAt_none, hany, hn, hi]
      | none =>
        exfalso
        have htrue : (insert_or_update_job db c t).1 = true := by
          simp [insert_or_update_job, insert_or_update_jobE, hc, raiseAt_none, hany, hn]
        rw [h] at htrue
        cases htrue

/-- Any upsert run that returns `True` appended exactly one freshly built
row (whose `first_seen` is the call's `now`). -/
theorem upsert_true_shape (db : List JobRec) (c : Candidate) (t : Nat)
    (h : (insert_or_update_job db c t).1 = true) :
    ∃ u, c.url = some u
      ∧ (insert_or_update_job db c t).2 = db ++ [mkRecord c u t (nextId db)] := by
  cases hc : c.url with
  | none =>
    exfalso
    simp [insert_or_update_job, insert_or_update_jobE, hc] at h
  | some u =>
    by_cases hany : (db.any fun r => urlMatch r u) = true
    · exfalso
      simp [insert_or_update_job, insert_or_update_jobE, hc, raiseAt_none, hany] at h
    · obtain ⟨res, n, hn⟩ := dupScanE_none_total db (snippet c.description) t
        (db.filter fun r => keyMatch r c) 2
      cases res with
      | some db2 =>
        exfalso
        simp [insert_or_update_job, insert_or_update_jobE, hc, raiseAt_none, hany, hn] at h
      | none =>
        exact ⟨u, rfl, by
          simp [insert_or_update_job, insert_or_update_jobE, hc, raiseAt_none, hany, hn]⟩

/-- Deleting by id only ever drops rows. -/
theorem deleteIds_fst_sublist (ids : List Nat) :
    ∀ acc : List JobRec × Nat, ((deleteIds ids acc).1).Sublist acc.1 := by
  induction ids with
  | nil => intro acc; exact List.Sublist.refl _
  | cons i is ih =>
    intro acc
    exact (ih _).trans (List.filter_sublist _)

/-- The whole destructive fold only ever drops rows. -/
theorem sweep_fold_fst_sublist (ps : List (Nat × List Nat)) :
    ∀ acc : List JobRec × Nat,
      ((ps.foldl (fun acc p => deleteIds p.2 acc) acc).1).Sublist acc.1 := by
  induction ps with
  | nil => intro acc; exact List.Sublist.refl _
  | cons p ps ih =>
    intro acc
    exact (ih _).trans (deleteIds_fst_sublist p.2 acc)

/-- The sweep returns a sublist of the store: surviving rows are the original
row objects, every field (in particular `first_seen`) untouched. -/
theorem sweep_rows_sublist (rows : List JobRec) (b : Bool) :
    ((remove_duplicates rows b).rows).Sublist rows := by
  cases b with
  | true => simpa [remove_duplicates] using List.Sublist.refl rows
  | false => simpa [remove_duplicates] using sweep_fold_fst_sublist (plans rows) (rows, 0)

/-- C9: `first_seen` is write-once and the update paths have a tight frame.
An upsert returning `Updated` keeps the length and maps each position to
either the identical row or that row with only `last_seen`/`is_active`
rewritten (`touch`); an upsert returning `Inserted` appends one new row with
`first_seen = now` and leaves the prefix untouched; the sweep only drops
whole rows; and `touch` provably changes nothing but
`last_seen`/`is_active`. -/
theorem first_seen_immutable_update_frame :
    (∀ (db : List JobRec) (c : Candidate) (t : Nat),
      ((insert_or_update_job db c t).1 = false →
        (insert_or_update_job db c t).2.length = db.length
        ∧ ∀ i : Nat, i < db.length →
            (insert_or_update_job db c t).2[i]? = db[i]?
            ∨ ∃ r, db[i]? = some r
                ∧ (insert_or_update_job db c t).2[i]? = some (touch r t))
      ∧ ((insert_or_update_job db c t).1 = true →
        ∃ u, c.url = some u
          ∧ (insert_or_update_job db c t).2 = db ++ [mkRecord c u t (nextId db)]
          ∧ (mkRecord c u t (nextId db)).first_seen = t))
    ∧ (∀ (rows : List JobRec) (b : Bool), ((remove_duplicates rows b).rows).Sublist rows)
    ∧ (∀ (r : JobRec) (t : Nat),
        (touch r t).first_seen = r.first_seen ∧ (touch r t).id = r.id
        ∧ (touch r t).url = r.url ∧ (touch r t).title = r.title
        ∧ (touch r t).company = r.company ∧ (touch r t).location = r.location
        ∧ (touch r t).region = r.region ∧ (touch r t).salary = r.salary
        ∧ (touch r t).date_listed = r.date_listed ∧ (touch r t).job_type = r.job_type
        ∧ (touch r t).description = r.description
        ∧ (touch r t).triage_status = r.triage_status
        ∧ (touch r t).last_seen = t ∧ (touch r t).is_active = true) := by
  refine ⟨fun db c t => ⟨fun hf => ?_, fun ht => ?_⟩, sweep_rows_sublist,
    fun r t => ⟨rfl, rfl, rfl, rfl, rfl, rfl, rfl, rfl, rfl, rfl, rfl, rfl, rfl, rfl⟩⟩
  · rcases upsert_false_shape db c t hf with heq | ⟨p, heq⟩
    · rw [heq]
      exact ⟨rfl, fun i _ => Or.inl rfl⟩
    · rw [heq]
      refine ⟨by simp, fun i hi => ?_⟩
      rw [List.getElem?_map]
      cases hdb : db[i]? with
      | none => simp
      | some r =>
        by_cases hp : p r = true
        · right
          exact ⟨r, rfl, by simp [hp]⟩
        · left
          simp [hp]
  · obtain ⟨u, hcu, heq⟩ := upsert_true_shape db c t ht
    exact ⟨u, hcu, heq, rfl⟩

/-- C9 witness: the frame statement applied at a concrete store, candidate
and sweep input. -/
theorem first_seen_immutable_update_frame_witness :
    (((insert_or_update_job [sampleRow] sampleCand 5).1 = false →
        (insert_or_update_job [sampleRow] sampleCand 5).2.length = [sampleRow].length
        ∧ ∀ i : Nat, i < [sampleRow].length →
            (insert_or_update_job [sampleRow] sampleCand 5).2[i]? = [sampleRow][i]?
            ∨ ∃ r, [sampleRow][i]? = some r
                ∧ (insert_or_update_job [sampleRow] sampleCand 5).2[i]? = some (touch r 5))
      ∧ ((insert_or_update_job [sampleRow] sampleCand 5).1 = true →
        ∃ u, sampleCand.url = some u
          ∧ (insert_or_update_job [sampleRow] sampleCand 5).2
              = [sampleRow] ++ [mkRecord sampleCand u 5 (nextId [sampleRow])]
          ∧ (mkRecord sampleCand u 5 (nextId [sampleRow])).first_seen = 5))
    ∧ ((remove_duplicates dupRows false).rows).Sublist dupRows
    ∧ ((touch sampleRow 9).first_seen = sampleRow.first_seen
        ∧ (touch sampleRow 9).id = sampleRow.id
        ∧ (touch sampleRow 9).url = sampleRow.url
        ∧ (touch sampleRow 9).title = sampleRow.title
        ∧ (touch sampleRow 9).company = sampleRow.company
        ∧ (touch sampleRow 9).location = sampleRow.location
        ∧ (touch sampleRow 9).region = sampleRow.region
        ∧ (touch sampleRow 9).salary = sampleRow.salary
        ∧ (touch sampleRow 9).date_listed = sampleRow.date_listed
        ∧ (touch sampleRow 9).job_type = sampleRow.job_type
        ∧ (touch sampleRow 9).description = sampleRow.description
        ∧ (touch sampleRow 9).triage_status = sampleRow.triage_status
        ∧ (touch sampleRow 9).last_seen = 9 ∧ (touch sampleRow 9).is_active = true) :=
  ⟨first_seen_immutable_update_frame.1 [sampleRow] sampleCand 5,
    first_seen_immutable_update_frame.2.1 dupRows false,
    first_seen_immutable_update_frame.2.2 sampleRow 9⟩

/-! ## Sorting and grouping machinery of the sweep (claims C2 and C4) -/

/-- Inserting into the `first_seen` sort is a permutation. -/
theorem insFS_perm (r : JobRec) : ∀ l : List JobRec, (insFS r l).Perm (r :: l) := by
  intro l
  induction l with
  | nil => exact List.Perm.refl _
  | cons x xs ih =>
    simp only [insFS]
    by_cases h : r.first_seen < x.first_seen
    · rw [if_pos h]
    · rw [if_neg h]
      exact (ih.cons x).trans (List.Perm.swap r x xs)

/-- `ORDER BY first_seen` permutes the group. -/
theorem sortFS_perm : ∀ l : List JobRec, (sortFS l).Perm l := by
  intro l
  induction l with
  | nil => exact List.Perm.refl _
  | cons x xs ih =>
    simp only [sortFS]
    exact (insFS_perm x (sortFS xs)).trans (ih.cons x)

/-- Insertion keeps the list ordered by `first_seen`. -/
theorem insFS_pairwise (r : JobRec) :
    ∀ l : List JobRec,
      l.Pairwise (fun a b => a.first_seen ≤ b.first_seen) →
      (insFS r l).Pairwise (fun a b => a.first_seen ≤ b.first_seen) := by
  intro l
  induction l with
  | nil => intro _; simp [insFS]
  | cons x xs ih =>
    intro hp
    rw [List.pairwise_cons] at hp
    obtain ⟨hx, hxs⟩ := hp
    simp only [insFS]
    by_cases h : r.first_seen < x.first_seen
    · rw [if_pos h]
      rw [List.pairwise_cons]
      refine ⟨?_, List.pairwise_cons.mpr ⟨hx, hxs⟩⟩
      intro y hy
      rcases List.mem_cons.mp hy with rfl | hy2
      · exact Nat.le_of_lt h
      · exact Nat.le_trans (Nat.le_of_lt h) (hx y hy2)
    · rw [if_neg h]
      rw [List.pairwise_cons]
      refine ⟨?_, ih hxs⟩
      intro y hy
      rcases List.mem_cons.mp ((insFS_perm r xs).mem_iff.mp hy) with rfl | h2
      · exact Nat.le_of_not_lt h
      · exact hx y h2

/-- The sorted group is ordered by `first_seen`. -/
theorem sortFS_pairwise :
    ∀ l : List JobRec,
      (sortFS l).Pairwise (fun a b => a.first_seen ≤ b.first_seen) := by
  intro l
  induction l with
  | nil => simp [sortFS]
  | cons x xs ih =>
    simp only [sortFS]
    exact insFS_pairwise x (sortFS xs) ih

/-- The head of the sorted group has the minimal `first_seen`. -/
theorem sortFS_head_min (g : List JobRec) (h0 : JobRec) (tl : List JobRec)
    (hsort : sortFS g = h0 :: tl) :
    ∀ x ∈ sortFS g, h0.first_seen ≤ x.first_seen := by
  intro x hx
  rw [hsort] at hx
  rcases List.mem_cons.mp hx with rfl | hx2
  · exact Nat.le_refl _
  · have hp := sortFS_pairwise g
    rw [hsort, List.pairwise_cons] at hp
    exact hp.1 x hx2

/-- Membership in one group. -/
theorem mem_groupOf {rows : List JobRec} {k : SweepKey} {r : JobRec} :
    r ∈ groupOf rows k ↔ r ∈ rows ∧ rowKey r = some k := by
  simp [groupOf, List.mem_filter]

/-- Grouping commutes with filtering the store. -/
theorem groupOf_filter (rows : List JobRec) (q : JobRec → Bool) (k : SweepKey) :
    groupOf (rows.filter q) k = (groupOf rows k).filter q := by
  simp only [groupOf, List.filter_filter]
  exact List.filter_congr fun a _ => Bool.and_comm _ _

/-- The keys list contains exactly the keys realised by some row. -/
theorem mem_keysOf : ∀ (rows : List JobRec) (k : SweepKey),
    k ∈ keysOf rows ↔ ∃ r ∈ rows, rowKey r = some k := by
  intro rows
  induction rows with
  | nil => intro k; simp [keysOf]
  | cons r rest ih =>
    intro k
    cases hk : rowKey r with
    | none =>
      have hred : keysOf (r :: rest) = keysOf rest := by
        simp [keysOf, hk]
      rw [hred]
      constructor
      · intro h
        obtain ⟨x, hx, hxk⟩ := (ih k).mp h
        exact ⟨x, List.mem_cons_of_mem _ hx, hxk⟩
      · rintro ⟨x, hx, hxk⟩
        rcases List.mem_cons.mp hx with rfl | hx2
        · rw [hk] at hxk
          cases hxk
        · exact (ih k).mpr ⟨x, hx2, hxk⟩
    | some k0 =>
      by_cases hm : k0 ∈ keysOf rest
      · have hred : keysOf (r :: rest) = keysOf rest := by
          simp [keysOf, hk, hm]
        rw [hred]
        constructor
        · intro h
          obtain ⟨x, hx, hxk⟩ := (ih k).mp h
          exact ⟨x, List.mem_cons_of_mem _ hx, hxk⟩
        · rintro ⟨x, hx, hxk⟩
          rcases List.mem_cons.mp hx with rfl | hx2
          · rw [hk] at hxk
            injection hxk with hkk
            rw [← hkk]
            exact hm
          · exact (ih k).mpr ⟨x, hx2, hxk⟩
      · have hred : keysOf (r :: rest) = k0 :: keysOf rest := by
          simp [keysOf, hk, hm]
        rw [hred]
        constructor
        · intro h
          rcases List.mem_cons.mp h with rfl | h2
          · exact ⟨r, List.mem_cons_self _ _, hk⟩
          · obtain ⟨x, hx, hxk⟩ := (ih k).mp h2
            exact ⟨x, List.mem_cons_of_mem _ hx, hxk⟩
        · rintro ⟨x, hx, hxk⟩
          rcases List.mem_cons.mp hx with rfl | hx2
          · rw [hk] at hxk
            injection hxk with hkk
            rw [hkk]
            exact List.mem_cons_self _ _
          · exact List.mem_cons_of_mem _ ((ih k).mpr ⟨x, hx2, hxk⟩)

/-- The keys list never repeats a key. -/
theorem keysOf_nodup : ∀ rows : List JobRec, (keysOf rows).Nodup := by
  intro rows
  induction rows with
  | nil => exact List.nodup_nil
  | cons r rest ih =>
    cases hk : rowKey r with
    | none => simpa [keysOf, hk] using ih
    | some k0 =>
      by_cases hm : k0 ∈ keysOf rest
      · simpa [keysOf, hk, hm] using ih
      · have hred : keysOf (r :: rest) = k0 :: keysOf rest := by
          simp [keysOf, hk, hm]
        rw [hred]
        exact List.nodup_cons.mpr ⟨hm, ih⟩

/-- The duplicate keys. -/
theorem mem_dupKeys {rows : List JobRec} {k : SweepKey} :
    k ∈ dupKeys rows ↔ k ∈ keysOf rows ∧ 1 < (groupOf rows k).length := by
  simp [dupKeys, List.mem_filter]

/-- Two distinct members force length at least two. -/
theorem one_lt_length_of_two_mem {α : Type} {l : List α} {a b : α}
    (ha : a ∈ l) (hb : b ∈ l) (hne : a ≠ b) : 1 < l.length := by
  cases l with
  | nil => cases ha
  | cons x xs =>
    cases xs with
    | nil =>
      rcases List.mem_cons.mp ha with rfl | ha2
      · rcases List.mem_cons.mp hb with rfl | hb2
        · exact absurd rfl hne
        · cases hb2
      · cases ha2
    | cons y ys => simp [List.length_cons]

/-- Membership in the concatenated removal lists. -/
theorem foldr_append_mem (ps : List (Nat × List Nat)) (i : Nat) :
    i ∈ ps.foldr (fun p acc => p.2 ++ acc) [] ↔ ∃ p ∈ ps, i ∈ p.2 := by
  induction ps with
  | nil => simp
  | cons p ps ih => simp [List.mem_append, ih]

/-- An id is slated for removal exactly when some duplicate group's plan
lists it. -/
theorem mem_removalIds {rows : List JobRec} {i : Nat} :
    i ∈ removalIds rows ↔ ∃ k ∈ dupKeys rows, i ∈ (planOf rows k).2 := by
  unfold removalIds plans
  rw [foldr_append_mem]
  constructor
  · rintro ⟨p, hp, hip⟩
    obtain ⟨k, hk, rfl⟩ := List.mem_map.mp hp
    exact ⟨k, hk, hip⟩
  · rintro ⟨k, hk, hik⟩
    exact ⟨planOf rows k, List.mem_map.mpr ⟨k, hk, rfl⟩, hik⟩

/-- Every id in a group's removal list is the id of a row of that group. -/
theorem planOf_removals_mem (rows : List JobRec) (k : SweepKey) (i : Nat)
    (hi : i ∈ (planOf rows k).2) :
    ∃ m, m ∈ rows ∧ rowKey m = some k ∧ m.id = i := by
  unfold planOf at hi
  cases hs : (sortFS (groupOf rows k)).map (fun r => r.id) with
  | nil =>
    rw [hs] at hi
    simp at hi
  | cons keep restIds =>
    rw [hs] at hi
    simp only [] at hi
    have himem : i ∈ (sortFS (groupOf rows k)).map (fun r => r.id) := by
      rw [hs]
      exact List.mem_cons_of_mem _ hi
    obtain ⟨m, hm, hmid⟩ := List.mem_map.mp himem
    have hg : m ∈ groupOf rows k := (sortFS_perm _).mem_iff.mp hm
    obtain ⟨hrows, hkey⟩ := mem_groupOf.mp hg
    exact ⟨m, hrows, hkey, hmid⟩

/-- Group ids inherit uniqueness from the store. -/
theorem groupOf_ids_nodup (rows : List JobRec)
    (hid : (rows.map (fun r => r.id)).Nodup) (k : SweepKey) :
    ((groupOf rows k).map (fun r => r.id)).Nodup := by
  simp only [groupOf]
  exact List.Nodup.sublist (List.Sublist.map _ (List.filter_sublist _)) hid

/-- Sorting keeps the ids unique. -/
theorem sortFS_ids_nodup (g : List JobRec) (h : (g.map (fun r => r.id)).Nodup) :
    ((sortFS g).map (fun r => r.id)).Nodup :=
  (List.Perm.nodup_iff ((sortFS_perm g).map _)).mpr h

/-- A group containing a row sorts to a non-empty list. -/
theorem sortFS_ne_nil {g : List JobRec} {r : JobRec} (hrg : r ∈ g) :
    sortFS g ≠ [] := by
  intro hnil
  have hperm := sortFS_perm g
  rw [hnil] at hperm
  have hg : g = [] := List.perm_nil.mp hperm.symm
  rw [hg] at hrg
  cases hrg

/-- The central criterion: a keyed row's id is slated for removal exactly
when its group is a duplicate group and the row is not the sorted group's
head (the keeper). -/
theorem removal_mem_criterion (rows : List JobRec)
    (hid : (rows.map (fun r => r.id)).Nodup)
    (r : JobRec) (hr : r ∈ rows) (k : SweepKey) (hk : rowKey r = some k)
    (h0 : JobRec) (tl : List JobRec)
    (hsort : sortFS (groupOf rows k) = h0 :: tl) :
    r.id ∈ removalIds rows ↔ (k ∈ dupKeys rows ∧ r ≠ h0) := by
  have hrg : r ∈ groupOf rows k := mem_groupOf.mpr ⟨hr, hk⟩
  have hgnodup : ((sortFS (groupOf rows k)).map (fun x => x.id)).Nodup :=
    sortFS_ids_nodup _ (groupOf_ids_nodup rows hid k)
  rw [hsort, List.map_cons, List.nodup_cons] at hgnodup
  obtain ⟨hh0tl, htlnodup⟩ := hgnodup
  have hrsort : r ∈ sortFS (groupOf rows k) := (sortFS_perm _).mem_iff.mpr hrg
  have hplan2 : (planOf rows k).2 = tl.map (fun x => x.id) := by
    unfold planOf
    rw [hsort, List.map_cons]
  constructor
  · intro hmem
    obtain ⟨k2, hk2dup, hk2plan⟩ := mem_removalIds.mp hmem
    obtain ⟨m, hmrows, hmkey, hmid⟩ := planOf_removals_mem rows k2 r.id hk2plan
    have hmr : m = r := id_inj rows hid m hmrows r hr hmid
    subst hmr
    rw [hk] at hmkey
    injection hmkey with hkk
    subst hkk
    refine ⟨hk2dup, ?_⟩
    rw [hplan2] at hk2plan
    intro hrh0
    rw [hrh0] at hk2plan
    exact hh0tl hk2plan
  · rintro ⟨hdup, hne⟩
    apply mem_removalIds.mpr
    refine ⟨k, hdup, ?_⟩
    rw [hplan2]
    have hrcons : r ∈ h0 :: tl := by
      rw [← hsort]
      exact hrsort
    rcases List.mem_cons.mp hrcons with rfl | htl
    · exact absurd rfl hne
    · exact List.mem_map.mpr ⟨r, htl, rfl⟩

/-- Rows excluded by the `WHERE` clause are never slated for removal. -/
theorem removal_none_key (rows : List JobRec)
    (hid : (rows.map (fun r => r.id)).Nodup)
    (r : JobRec) (hr : r ∈ rows) (hk : rowKey r = none) :
    r.id ∉ removalIds rows := by
  intro hmem
  obtain ⟨k2, _, hk2plan⟩ := mem_removalIds.mp hmem
  obtain ⟨m, hmrows, hmkey, hmid⟩ := planOf_removals_mem rows k2 r.id hk2plan
  have hmr : m = r := id_inj rows hid m hmrows r hr hmid
  rw [hmr, hk] at hmkey
  cases hmkey

/-- Deleting a list of ids filters the table by those ids. -/
theorem deleteIds_fst (ids : List Nat) :
    ∀ rowsn : List JobRec × Nat,
      (deleteIds ids rowsn).1
        = rowsn.1.filter (fun r => !(ids.any (fun i => r.id == i))) := by
  induction ids with
  | nil =>
    intro rowsn
    simp [deleteIds]
  | cons i is ih =>
    intro rowsn
    simp only [deleteIds, ih]
    rw [List.filter_filter]
    apply List.filter_congr
    intro a _
    cases h1 : (a.id == i) <;> cases h2 : is.any (fun j => a.id == j) <;>
      simp [List.any_cons, h1, h2]

/-- The destructive fold filters the table by the concatenated removal
lists. -/
theorem sweep_fold_rows (ps : List (Nat × List Nat)) :
    ∀ rowsn : List JobRec × Nat,
      (ps.foldl (fun acc p => deleteIds p.2 acc) rowsn).1
        = rowsn.1.filter
            (fun r => !((ps.foldr (fun p acc => p.2 ++ acc) []).any
              (fun i => r.id == i))) := by
  induction ps with
  | nil => intro rowsn; simp
  | cons p ps ih =>
    intro rowsn
    simp only [List.foldl_cons, List.foldr_cons, ih, deleteIds_fst, List.filter_filter]
    apply List.filter_congr
    intro a _
    cases h1 : p.2.any (fun i => a.id == i) <;>
      cases h2 : (ps.foldr (fun p acc => p.2 ++ acc) []).any (fun i => a.id == i) <;>
      simp [List.any_append, h1, h2]

/-- Counting a filter over a pointwise-exclusive disjunction splits. -/
theorem filter_or_length (p q : JobRec → Bool) :
    ∀ rows : List JobRec,
      (∀ r ∈ rows, ¬(p r = true ∧ q r = true)) →
      (rows.filter (fun r => p r || q r)).length
        = (rows.filter p).length + (rows.filter q).length := by
  intro rows
  induction rows with
  | nil => intro _; simp
  | cons a rest ih =>
    intro hdisj
    have hd := hdisj a (List.mem_cons_self _ _)
    have ih2 := ih fun r hr => hdisj r (List.mem_cons_of_mem _ hr)
    by_cases h1 : p a = true
    · by_cases h2 : q a = true
      · exact absurd ⟨h1, h2⟩ hd
      · simp only [List.filter_cons, h1, h2]
        simp [ih2]
        omega
    · by_cases h2 : q a = true
      · simp only [List.filter_cons, h1, h2]
        simp [ih2]
        omega
      · simp only [List.filter_cons, h1, h2]
        simp [ih2]

/-- Filtering by membership in a duplicate-free id list whose every id hits
exactly one row counts one row per id. -/
theorem filter_anyIds_length :
    ∀ (ids : List Nat) (rows : List JobRec),
      ids.Nodup →
      (∀ i ∈ ids, (rows.filter (fun r => r.id == i)).length = 1) →
      (rows.filter (fun r => ids.any (fun i => r.id == i))).length = ids.length := by
  intro ids
  induction ids with
  | nil => intro rows _ _; simp
  | cons i is ih =>
    intro rows hnd hone
    rw [List.nodup_cons] at hnd
    have hcongr : rows.filter (fun r => (i :: is).any (fun j => r.id == j))
        = rows.filter (fun r => (r.id == i) || is.any (fun j => r.id == j)) := by
      apply List.filter_congr
      intro a _
      simp [List.any_cons]
    have hdisj : ∀ r ∈ rows,
        ¬((r.id == i) = true ∧ (is.any (fun j => r.id == j)) = true) := by
      rintro r _ ⟨h1, h2⟩
      obtain ⟨j, hj, hj2⟩ := List.any_eq_true.mp h2
      have e1 : r.id = i := by simpa using h1
      have e2 : r.id = j := by simpa using hj2
      rw [← e1, e2] at hnd
      exact hnd.1 hj
    rw [hcongr, filter_or_length _ _ rows hdisj,
      hone i (List.mem_cons_self _ _),
      ih rows hnd.2 (fun j hj => hone j (List.mem_cons_of_mem _ hj))]
    simp [Nat.add_comm]

/-- The removal list's length is the total size of the per-group plans. -/
theorem removalIds_length (rows : List JobRec) :
    (removalIds rows).length = ((plans rows).map (fun p => p.2.length)).sum := by
  unfold removalIds
  generalize plans rows = ps
  induction ps with
  | nil => rfl
  | cons p ps ih => simp [List.length_append, ih]

/-- Every id slated for removal identifies exactly one stored row. -/
theorem removalIds_one (rows : List JobRec)
    (hid : (rows.map (fun r => r.id)).Nodup) :
    ∀ i ∈ removalIds rows, (rows.filter (fun r => r.id == i)).length = 1 := by
  intro i hi
  obtain ⟨k, _, hplan⟩ := mem_removalIds.mp hi
  obtain ⟨m, hmrows, _, hmid⟩ := planOf_removals_mem rows k i hplan
  have hsingle := filter_id_singleton rows hid m hmrows
  rw [hmid] at hsingle
  rw [hsingle]
  rfl

/-- The concatenated removal lists never repeat an id: within a plan ids are
unique, and plans of distinct keys speak about disjoint rows. -/
theorem plans_foldr_nodup (rows : List JobRec)
    (hid : (rows.map (fun r => r.id)).Nodup) :
    ∀ ks : List SweepKey, ks.Nodup →
      ((ks.map (planOf rows)).foldr (fun p acc => p.2 ++ acc) []).Nodup := by
  intro ks
  induction ks with
  | nil => intro _; exact List.nodup_nil
  | cons k ks ih =>
    intro hnd
    rw [List.nodup_cons] at hnd
    simp only [List.map_cons, List.foldr_cons]
    rw [List.nodup_append]
    refine ⟨?_, ih hnd.2, ?_⟩
    · cases hs : (sortFS (groupOf rows k)).map (fun r => r.id) with
      | nil =>
        have : (planOf rows k).2 = [] := by
          unfold planOf
          rw [hs]
        rw [this]
        exact List.nodup_nil
      | cons keep restIds =>
        have hplan : (planOf rows k).2 = restIds := by
          unfold planOf
          rw [hs]
        have hnodup := sortFS_ids_nodup _ (groupOf_ids_nodup rows hid k)
        rw [hs, List.nodup_cons] at hnodup
        rw [hplan]
        exact hnodup.2
    · intro i hik hirest
      obtain ⟨m, hmrows, hmkey, hmid⟩ := planOf_removals_mem rows k i hik
      obtain ⟨p, hp, hip⟩ := (foldr_append_mem _ i).mp hirest
      obtain ⟨k2, hk2, rfl⟩ := List.mem_map.mp hp
      obtain ⟨m2, hm2rows, hm2key, hm2id⟩ := planOf_removals_mem rows k2 i hip
      have hmm : m = m2 := id_inj rows hid m hmrows m2 hm2rows (by rw [hmid, hm2id])
      rw [hmm, hm2key] at hmkey
      injection hmkey with hkk
      exact hnd.1 (hkk ▸ hk2)

/-- The removal list never repeats an id. -/
theorem removalIds_nodup (rows : List JobRec)
    (hid : (rows.map (fun r => r.id)).Nodup) :
    (removalIds rows).Nodup := by
  unfold removalIds plans
  exact plans_foldr_nodup rows hid (dupKeys rows)
    (List.Nodup.filter _ (keysOf_nodup rows))

/-- With unique ids and distinct `first_seen` within each group, being
slated for removal coincides with having a same-key row strictly earlier by
`first_seen`. -/
theorem removal_any_eq_sameKeyEarlier (rows : List JobRec)
    (hid : (rows.map (fun r => r.id)).Nodup)
    (hfs : ∀ a ∈ rows, ∀ b ∈ rows, rowKey a = rowKey b → (rowKey a).isSome →
      a.first_seen = b.first_seen → a = b)
    (r : JobRec) (hr : r ∈ rows) :
    (removalIds rows).any (fun i => r.id == i) = sameKeyEarlier rows r := by
  rw [Bool.eq_iff_iff]
  simp only [List.any_eq_true]
  constructor
  · rintro ⟨i, hi, hbeq⟩
    have hieq : r.id = i := by simpa using hbeq
    rw [← hieq] at hi
    cases hk : rowKey r with
    | none => exact absurd hi (removal_none_key rows hid r hr hk)
    | some k =>
      cases hsort : sortFS (groupOf rows k) with
      | nil => exact absurd hsort (sortFS_ne_nil (mem_groupOf.mpr ⟨hr, hk⟩))
      | cons h0 tl =>
        obtain ⟨hdup, hne⟩ :=
          (removal_mem_criterion rows hid r hr k hk h0 tl hsort).mp hi
        have hh0sort : h0 ∈ sortFS (groupOf rows k) := by
          rw [hsort]
          exact List.mem_cons_self _ _
        have hh0g : h0 ∈ groupOf rows k := (sortFS_perm _).mem_iff.mp hh0sort
        obtain ⟨hh0rows, hh0key⟩ := mem_groupOf.mp hh0g
        have hrsort : r ∈ sortFS (groupOf rows k) :=
          (sortFS_perm _).mem_iff.mpr (mem_groupOf.mpr ⟨hr, hk⟩)
        have hmin : h0.first_seen ≤ r.first_seen :=
          sortFS_head_min _ h0 tl hsort r hrsort
        have hlt : h0.first_seen < r.first_seen := by
          rcases Nat.lt_or_ge h0.first_seen r.first_seen with h | h
          · exact h
          · exfalso
            have heqfs : h0.first_seen = r.first_seen := Nat.le_antisymm hmin h
            have heq : h0 = r :=
              hfs h0 hh0rows r hr (by rw [hh0key, hk]) (by rw [hh0key]; rfl) heqfs
            exact hne heq.symm
        simp only [sameKeyEarlier, hk]
        apply List.any_eq_true.mpr
        exact ⟨h0, hh0rows, by simp [hh0key, hlt]⟩
  · intro hsk
    cases hk : rowKey r with
    | none => simp [sameKeyEarlier, hk] at hsk
    | some k =>
      simp only [sameKeyEarlier, hk] at hsk
      obtain ⟨x, hx, hxp⟩ := List.any_eq_true.mp hsk
      rw [Bool.and_eq_true] at hxp
      obtain ⟨hxk, hxlt⟩ := hxp
      have hxkey : rowKey x = some k := of_decide_eq_true hxk
      have hxfs : x.first_seen < r.first_seen := of_decide_eq_true hxlt
      cases hsort : sortFS (groupOf rows k) with
      | nil => exact absurd hsort (sortFS_ne_nil (mem_groupOf.mpr ⟨hr, hk⟩))
      | cons h0 tl =>
        refine ⟨r.id, ?_, by simp⟩
        apply (removal_mem_criterion rows hid r hr k hk h0 tl hsort).mpr
        constructor
        · apply mem_dupKeys.mpr
          refine ⟨(mem_keysOf rows k).mpr ⟨r, hr, hk⟩, ?_⟩
          have hxg : x ∈ groupOf rows k := mem_groupOf.mpr ⟨hx, hxkey⟩
          have hrg : r ∈ groupOf rows k := mem_groupOf.mpr ⟨hr, hk⟩
          refine one_lt_length_of_two_mem hxg hrg ?_
          intro hxr
          rw [hxr] at hxfs
          exact Nat.lt_irrefl _ hxfs
        · have hxsort : x ∈ sortFS (groupOf rows k) :=
            (sortFS_perm _).mem_iff.mpr (mem_groupOf.mpr ⟨hx, hxkey⟩)
          have hminx : h0.first_seen ≤ x.first_seen :=
            sortFS_head_min _ h0 tl hsort x hxsort
          intro hrh0
          rw [hrh0] at hxfs
          exact Nat.lt_irrefl _ (Nat.lt_of_le_of_lt hminx hxfs)

/-- C2: sweep correctness.  For a store with unique ids and distinct
`first_seen` within each duplicate group, the destructive sweep retains
exactly the rows with no same-key row earlier by `first_seen` (each group's
keeper, and all ungrouped rows) and returns the number of rows removed; on
the concrete three-row group with ids 10 < 11 < 12 by `first_seen` it
retains id 10 and returns 2. -/
theorem sweep_removes_non_keepers (rows : List JobRec)
    (hid : (rows.map (fun r => r.id)).Nodup)
    (hfs : ∀ a ∈ rows, ∀ b ∈ rows, rowKey a = rowKey b → (rowKey a).isSome →
      a.first_seen = b.first_seen → a = b) :
    (remove_duplicates rows false).rows
        = rows.filter (fun r => !(sameKeyEarlier rows r))
    ∧ (remove_duplicates rows false).removed
        = (rows.filter (fun r => sameKeyEarlier rows r)).length
    ∧ ((remove_duplicates dupRows false).rows).map (fun r => r.id) = [10]
    ∧ (remove_duplicates dupRows false).removed = 2 := by
  have hrows : (remove_duplicates rows false).rows
      = rows.filter (fun r => !((removalIds rows).any (fun i => r.id == i))) := by
    simpa [remove_duplicates, removalIds] using
      sweep_fold_rows (plans rows) (rows, 0)
  have hcrit : ∀ r ∈ rows,
      (removalIds rows).any (fun i => r.id == i) = sameKeyEarlier rows r :=
    fun r hr => removal_any_eq_sameKeyEarlier rows hid hfs r hr
  refine ⟨?_, ?_, by decide, by decide⟩
  · rw [hrows]
    apply List.filter_congr
    intro a ha
    rw [hcrit a ha]
  · have hremoved : (remove_duplicates rows false).removed
        = ((plans rows).map (fun p => p.2.length)).sum := by
      simpa [remove_duplicates] using sweep_fold_removed (plans rows) (rows, 0)
    rw [hremoved, ← removalIds_length rows,
      ← filter_anyIds_length (removalIds rows) rows (removalIds_nodup rows hid)
        (removalIds_one rows hid)]
    have hfc : rows.filter (fun r => (removalIds rows).any (fun i => r.id == i))
        = rows.filter (fun r => sameKeyEarlier rows r) :=
      List.filter_congr fun a ha => hcrit a ha
    rw [hfc]

/-- C2 witness: the three-row duplicate group. -/
theorem sweep_removes_non_keepers_witness :
    (remove_duplicates dupRows false).rows
        = dupRows.filter (fun r => !(sameKeyEarlier dupRows r))
    ∧ (remove_duplicates dupRows false).removed
        = (dupRows.filter (fun r => sameKeyEarlier dupRows r)).length
    ∧ ((remove_duplicates dupRows false).rows).map (fun r => r.id) = [10]
    ∧ (remove_duplicates dupRows false).removed = 2 :=
  sweep_removes_non_keepers dupRows (by decide)
    (by
      intro a ha b hb
      simp only [dupRows, List.mem_cons, List.not_mem_nil, or_false] at ha hb
      rcases ha with rfl | rfl | rfl <;> rcases hb with rfl | rfl | rfl <;>
        intro h1 h2 h3 <;>
        first
          | rfl
          | exact absurd h3 (by decide))

/-- A duplicate-free list whose members are all one value has at most one
member. -/
theorem length_le_one_of_forall_eq {α : Type} {l : List α} {c : α}
    (hnd : l.Nodup) (h : ∀ a ∈ l, a = c) : l.length ≤ 1 := by
  cases l with
  | nil => simp
  | cons a rest =>
    cases rest with
    | nil => simp
    | cons b bs =>
      exfalso
      have ha := h a (List.mem_cons_self _ _)
      have hb := h b (List.mem_cons_of_mem _ (List.mem_cons_self _ _))
      rw [List.nodup_cons] at hnd
      refine hnd.1 ?_
      rw [ha, ← hb]
      exact List.mem_cons_self _ _

/-- C4: sweep idempotence.  After a destructive sweep of a store with unique
ids, every group has at most one surviving row (its keeper), so running the
sweep again finds no duplicate groups, removes zero rows, and returns the
store unchanged. -/
theorem sweep_idempotent (rows : List JobRec)
    (hid : (rows.map (fun r => r.id)).Nodup) :
    remove_duplicates ((remove_duplicates rows false).rows) false
      = { rows := (remove_duplicates rows false).rows, removed := 0, plan := [] } := by
  have hrows2 : (remove_duplicates rows false).rows
      = rows.filter (fun r => !((removalIds rows).any (fun i => r.id == i))) := by
    simpa [remove_duplicates, removalIds] using sweep_fold_rows (plans rows) (rows, 0)
  have hstepA : ∀ k, (groupOf ((remove_duplicates rows false).rows) k).length ≤ 1 := by
    intro k
    have hgf : groupOf ((remove_duplicates rows false).rows) k
        = (groupOf rows k).filter
            (fun r => !((removalIds rows).any (fun i => r.id == i))) := by
      rw [hrows2]
      exact groupOf_filter rows _ k
    by_cases hdup : k ∈ dupKeys rows
    · have hlen := (mem_dupKeys.mp hdup).2
      cases hsort : sortFS (groupOf rows k) with
      | nil =>
        exfalso
        have hperm := sortFS_perm (groupOf rows k)
        rw [hsort] at hperm
        have hnil : groupOf rows k = [] := List.perm_nil.mp hperm.symm
        rw [hnil] at hlen
        simp at hlen
      | cons h0 tl =>
        have hall : ∀ m ∈ (groupOf rows k).filter
            (fun r => !((removalIds rows).any (fun i => r.id == i))), m = h0 := by
          intro m hm
          obtain ⟨hmg, hmP⟩ := List.mem_filter.mp hm
          obtain ⟨hmrows, hmkey⟩ := mem_groupOf.mp hmg
          by_contra hne
          have hmrem : m.id ∈ removalIds rows :=
            (removal_mem_criterion rows hid m hmrows k hmkey h0 tl hsort).mpr
              ⟨hdup, hne⟩
          have hany : (removalIds rows).any (fun i => m.id == i) = true :=
            List.any_eq_true.mpr ⟨m.id, hmrem, by simp⟩
          rw [hany] at hmP
          simp at hmP
        have hrowsnodup : rows.Nodup := List.Nodup.of_map _ hid
        have hgnodup : (groupOf rows k).Nodup := by
          simp only [groupOf]
          exact List.Nodup.filter _ hrowsnodup
        rw [hgf]
        exact length_le_one_of_forall_eq (List.Nodup.filter _ hgnodup) hall
    · have hsub : (groupOf ((remove_duplicates rows false).rows) k).length
          ≤ (groupOf rows k).length := by
        rw [hgf]
        exact List.Sublist.length_le (List.filter_sublist _)
      have hle : (groupOf rows k).length ≤ 1 := by
        by_contra hlt
        have hlt2 : 1 < (groupOf rows k).length := Nat.lt_of_not_le hlt
        have hpos : 0 < (groupOf rows k).length := by omega
        obtain ⟨m, hm⟩ := List.exists_mem_of_length_pos hpos
        obtain ⟨hmrows, hmkey⟩ := mem_groupOf.mp hm
        exact hdup (mem_dupKeys.mpr
          ⟨(mem_keysOf rows k).mpr ⟨m, hmrows, hmkey⟩, hlt2⟩)
      omega
  have hdk : dupKeys ((remove_duplicates rows false).rows) = [] := by
    simp only [dupKeys]
    rw [List.filter_eq_nil_iff]
    intro k _ hdec
    have hlt : 1 < (groupOf ((remove_duplicates rows false).rows) k).length :=
      of_decide_eq_true hdec
    have := hstepA k
    omega
  have hplans : plans ((remove_duplicates rows false).rows) = [] := by
    simp [plans, hdk]
  generalize (remove_duplicates rows false).rows = R at hplans ⊢
  simp [remove_duplicates, hplans]

/-- C4 witness: re-sweeping the already-deduplicated three-row store removes
nothing. -/
theorem sweep_idempotent_witness :
    remove_duplicates ((remove_duplicates dupRows false).rows) false
      = { rows := (remove_duplicates dupRows false).rows, removed := 0, plan := [] } :=
  sweep_idempotent dupRows (by decide)

end Seek
